import Mathlib

set_option maxHeartbeats 1000000

/- Verification development for the PlannerMap graph rollup / sizing / layout /
drag engine (src/app.js).  The JavaScript source is shallowly embedded below:
node ids are modelled as naturals, JS numbers as rationals, JS `Map`s as
association lists (insertion at the front, first-match lookup, which matches
the overwrite semantics of `Map.set`/`Map.get`), and the recursive or
looping procedures are given explicit fuel together with fuel-adequacy
lemmas showing the fuel bound is never the reason a computation stops. -/

namespace PlannerMap

/-- The five status strings of `STATUS_OPTIONS` in src/app.js. -/
inductive Status where
  | considering
  | shelved
  | committed
  | inProgress
  | complete
deriving DecidableEq, Repr

@[simp] theorem considering_ne_shelved : ¬ Status.considering = Status.shelved := by decide
@[simp] theorem committed_ne_shelved : ¬ Status.committed = Status.shelved := by decide
@[simp] theorem inProgress_ne_shelved : ¬ Status.inProgress = Status.shelved := by decide
@[simp] theorem complete_ne_shelved : ¬ Status.complete = Status.shelved := by decide

/-- A 2D point, as stored in `Node.position` and in the layout cache. -/
structure Pos where
  x : ℚ
  y : ℚ
deriving DecidableEq, Repr

/-- A planner node.  Fields that no algorithm under verification reads
(`name`, `description`, `assignedTo`) are omitted.  `position` is `none`
when the JS field is `null`/absent. -/
structure Node where
  id : Nat
  estimatedCost : ℚ
  estimatedTime : ℚ
  status : Status
  positionLocked : Bool
  position : Option Pos
deriving DecidableEq, Repr

/-- A directed link; `fromId`/`toId` embed the JS fields `from`/`to`
(`from` is a keyword in Lean).  The link's own `id` field is not read by
any algorithm under verification and is omitted. -/
structure Link where
  fromId : Nat
  toId : Nat
deriving DecidableEq, Repr

/-- The persistent state `{nodes, links}`. -/
structure AppState where
  nodes : List Node
  links : List Link
deriving DecidableEq, Repr

/-- `childrenMap.get(i) || []` from `buildGraph`: the `to` ids of links whose
`from` is `i`, in link-list order. -/
def childrenOf (links : List Link) (i : Nat) : List Nat :=
  (links.filter (fun l => l.fromId == i)).map (·.toId)

/-- `incomingMap.get(i) || []` from `buildGraph`: the `from` ids of links whose
`to` is `i`, in link-list order. -/
def incomingOf (links : List Link) (i : Nat) : List Nat :=
  (links.filter (fun l => l.toId == i)).map (·.fromId)

/-- `nodesById.get(i)` from `buildGraph`.  A JS `Map` built from an entry list
keeps the last entry for a duplicated key, hence `getLast?` of the filter. -/
def nodesByIdGet (nodes : List Node) (i : Nat) : Option Node :=
  (nodes.filter (fun nd => nd.id == i)).getLast?

/-- A `{cost, time}` pair as produced by `computeTotals`. -/
structure Totals where
  cost : ℚ
  time : ℚ
deriving DecidableEq, Repr

/-- The memo table of `computeTotals` (a JS `Map` keyed by node id). -/
abbrev Memo := List (Nat × Totals)

/-- `memo.get(i)` (also `memo.has(i)` via `Option.isSome`). -/
def memoGet (m : Memo) (i : Nat) : Option Totals :=
  (m.find? (fun e => e.1 == i)).map (·.2)

/-- `memo.set(i, t)`: prepending makes the new entry shadow any older one. -/
def memoSet (m : Memo) (i : Nat) (t : Totals) : Memo :=
  (i, t) :: m

/-- The inner recursive `totalFor(nodeId, trail)` of `computeTotals`
(src/app.js lines 171-199), with the mutable `memo` map threaded through
explicitly and an explicit fuel argument bounding the recursion depth
(`totalFor_fuel_ge` below shows any fuel above the number of node ids not on
the trail gives the same result, so the fuel never cuts a real computation
short).  Branch order follows the source: memo hit, missing-or-shelved
(memoized zero), trail hit (non-memoized zero), then the recursive sum over
`childrenMap` in bucket order. -/
def totalFor (s : AppState) : Nat → Nat → List Nat → Memo → Totals × Memo
  | 0, _, _, memo => (⟨0, 0⟩, memo)
  | fuel + 1, nodeId, trail, memo =>
    match memoGet memo nodeId with
    | some t => (t, memo)
    | none =>
      match nodesByIdGet s.nodes nodeId with
      | none => (⟨0, 0⟩, memoSet memo nodeId ⟨0, 0⟩)
      | some node =>
        if node.status = Status.shelved then
          (⟨0, 0⟩, memoSet memo nodeId ⟨0, 0⟩)
        else if nodeId ∈ trail then
          (⟨0, 0⟩, memo)
        else
          let res := (childrenOf s.links nodeId).foldl
            (fun (acc : Totals × Memo) childId =>
              let r := totalFor s fuel childId (nodeId :: trail) acc.2
              (⟨acc.1.cost + r.1.cost, acc.1.time + r.1.time⟩, r.2))
            (⟨node.estimatedCost, node.estimatedTime⟩, memo)
          (res.1, memoSet res.2 nodeId res.1)

/-- The pass of `computeTotals` over `state.nodes`, producing the
`totalsById` map (as an association list, newest entry first) and the final
memo. -/
def computeTotalsPass (s : AppState) (fuel : Nat) : List (Nat × Totals) × Memo :=
  s.nodes.foldl
    (fun acc node =>
      let r := totalFor s fuel node.id [] acc.2
      ((node.id, r.1) :: acc.1, r.2))
    ([], [])

/-- `computeTotals()` (src/app.js lines 167-206): the `totalsById` map.  The
fuel `s.nodes.length + 1` strictly exceeds the maximal recursion depth, which
is bounded by the number of distinct node ids (see `totalFor_fuel_ge`). -/
def computeTotals (s : AppState) : List (Nat × Totals) :=
  (computeTotalsPass s (s.nodes.length + 1)).1

/-- `totalsById.get(i)`. -/
def totalsGet (l : List (Nat × Totals)) (i : Nat) : Option Totals :=
  (l.find? (fun e => e.1 == i)).map (·.2)

/-- Helper for building test states. -/
def mkNode (i : Nat) (c t : ℚ) (st : Status) : Node :=
  ⟨i, c, t, st, false, none⟩

/-- The A→B→C chain of the spec's rollup additivity example:
`childrenMap[A]=[B]`, `childrenMap[B]=[C]`, costs 100/50/25, none shelved. -/
def chainState : AppState :=
  ⟨[mkNode 1 100 0 .considering, mkNode 2 50 0 .considering,
    mkNode 3 25 0 .considering],
   [⟨1, 2⟩, ⟨2, 3⟩]⟩

/-- The same chain with `B.status = Shelved`. -/
def chainShelvedB : AppState :=
  ⟨[mkNode 1 100 0 .considering, mkNode 2 50 0 .shelved,
    mkNode 3 25 0 .considering],
   [⟨1, 2⟩, ⟨2, 3⟩]⟩

example : totalsGet (computeTotals chainState) 1 = some ⟨175, 0⟩ := by
  norm_num [computeTotals, computeTotalsPass, totalFor, memoGet, memoSet,
    totalsGet, nodesByIdGet, childrenOf, chainState, mkNode]
example : totalsGet (computeTotals chainState) 2 = some ⟨75, 0⟩ := by
  norm_num [computeTotals, computeTotalsPass, totalFor, memoGet, memoSet,
    totalsGet, nodesByIdGet, childrenOf, chainState, mkNode]
example : totalsGet (computeTotals chainState) 3 = some ⟨25, 0⟩ := by
  norm_num [computeTotals, computeTotalsPass, totalFor, memoGet, memoSet,
    totalsGet, nodesByIdGet, childrenOf, chainState, mkNode]
example : totalsGet (computeTotals chainShelvedB) 1 = some ⟨100, 0⟩ := by
  norm_num [computeTotals, computeTotalsPass, totalFor, memoGet, memoSet,
    totalsGet, nodesByIdGet, childrenOf, chainShelvedB, mkNode]
example : totalsGet (computeTotals chainShelvedB) 2 = some ⟨0, 0⟩ := by
  norm_num [computeTotals, computeTotalsPass, totalFor, memoGet, memoSet,
    totalsGet, nodesByIdGet, childrenOf, chainShelvedB, mkNode]
example : totalsGet (computeTotals chainShelvedB) 3 = some ⟨25, 0⟩ := by
  norm_num [computeTotals, computeTotalsPass, totalFor, memoGet, memoSet,
    totalsGet, nodesByIdGet, childrenOf, chainShelvedB, mkNode]

/-! ### Basic lemmas about the memo map and node lookup -/

theorem memoGet_memoSet_self (m : Memo) (i : Nat) (t : Totals) :
    memoGet (memoSet m i t) i = some t := by
  simp [memoGet, memoSet, List.find?]

theorem memoGet_memoSet_ne (m : Memo) (i j : Nat) (t : Totals) (h : j ≠ i) :
    memoGet (memoSet m i t) j = memoGet m j := by
  have hb : (i == j) = false := by simpa using Ne.symm h
  simp [memoGet, memoSet, List.find?, hb]

theorem filter_id_eq_nil (nodes : List Node) (i : Nat)
    (h : i ∉ nodes.map (·.id)) : nodes.filter (fun nd => nd.id == i) = [] := by
  induction nodes with
  | nil => rfl
  | cons nd rest ih =>
    simp only [List.map_cons, List.mem_cons] at h
    push_neg at h
    simp only [List.filter_cons]
    rw [if_neg (by simp [Ne.symm h.1]), ih h.2]

/-- Under distinct node ids, `nodesById.get(n.id)` returns `n` itself. -/
theorem nodesByIdGet_of_nodup (nodes : List Node) (n : Node)
    (hnd : (nodes.map (·.id)).Nodup) (hm : n ∈ nodes) :
    nodesByIdGet nodes n.id = some n := by
  induction nodes with
  | nil => cases hm
  | cons nd rest ih =>
    simp only [List.map_cons, List.nodup_cons] at hnd
    rcases List.mem_cons.mp hm with rfl | hmem
    · have : rest.filter (fun x => x.id == n.id) = [] :=
        filter_id_eq_nil rest n.id hnd.1
      simp [nodesByIdGet, List.filter_cons, this]
    · have hne : nd.id ≠ n.id := by
        intro he
        exact hnd.1 (he ▸ List.mem_map_of_mem (·.id) hmem)
      have := ih hnd.2 hmem
      simpa [nodesByIdGet, List.filter_cons, hne] using this

/-! ### The shelved-zero memo invariant (claim C1) -/

/-- The step function of the fold over `childrenMap[nodeId]` inside
`totalFor`, named so proofs can speak about it. -/
def childStep (s : AppState) (fuel : Nat) (trailNew : List Nat)
    (acc : Totals × Memo) (childId : Nat) : Totals × Memo :=
  let r := totalFor s fuel childId trailNew acc.2
  (⟨acc.1.cost + r.1.cost, acc.1.time + r.1.time⟩, r.2)

/-- One-step unfolding of `totalFor` at positive fuel, phrased with
`childStep`. -/
theorem totalFor_succ (s : AppState) (fuel : Nat) (i : Nat) (trail : List Nat)
    (m : Memo) :
    totalFor s (fuel + 1) i trail m =
      match memoGet m i with
      | some t => (t, m)
      | none =>
        match nodesByIdGet s.nodes i with
        | none => (⟨0, 0⟩, memoSet m i ⟨0, 0⟩)
        | some node =>
          if node.status = Status.shelved then
            (⟨0, 0⟩, memoSet m i ⟨0, 0⟩)
          else if i ∈ trail then
            (⟨0, 0⟩, m)
          else
            let res := (childrenOf s.links i).foldl
              (childStep s fuel (i :: trail))
              (⟨node.estimatedCost, node.estimatedTime⟩, m)
            (res.1, memoSet res.2 i res.1) := rfl

/-- Invariant: every memo entry whose key is the id of a shelved node holds
the zero total. -/
def ShelvedMemoOK (s : AppState) (m : Memo) : Prop :=
  ∀ i nd t, nodesByIdGet s.nodes i = some nd → nd.status = Status.shelved →
    memoGet m i = some t → t = ⟨0, 0⟩

theorem shelvedMemoOK_memoSet_zero {s : AppState} {m : Memo} (i : Nat)
    (h : ShelvedMemoOK s m) : ShelvedMemoOK s (memoSet m i ⟨0, 0⟩) := by
  intro j nd t hget hst hmem
  by_cases hj : j = i
  · subst hj
    rw [memoGet_memoSet_self] at hmem
    exact (Option.some_inj.mp hmem).symm
  · rw [memoGet_memoSet_ne m i j _ hj] at hmem
    exact h j nd t hget hst hmem

theorem shelvedMemoOK_memoSet_nonshelved {s : AppState} {m : Memo} {i : Nat}
    {node : Node} (v : Totals) (h : ShelvedMemoOK s m)
    (hget : nodesByIdGet s.nodes i = some node)
    (hst : ¬ node.status = Status.shelved) :
    ShelvedMemoOK s (memoSet m i v) := by
  intro j nd t hj hstj hmem
  by_cases hji : j = i
  · subst hji
    rw [hget] at hj
    exact absurd (Option.some_inj.mp hj ▸ hstj) hst
  · rw [memoGet_memoSet_ne m i j _ hji] at hmem
    exact h j nd t hj hstj hmem

/-- `totalFor` preserves the shelved-zero memo invariant. -/
theorem totalFor_preserves_shelvedMemoOK (s : AppState) :
    ∀ fuel i trail m, ShelvedMemoOK s m →
      ShelvedMemoOK s (totalFor s fuel i trail m).2 := by
  intro fuel
  induction fuel with
  | zero => intro i trail m h; exact h
  | succ fuel ih =>
    intro i trail m h
    rw [totalFor_succ]
    rcases hmem : memoGet m i with _ | t
    · rcases hget : nodesByIdGet s.nodes i with _ | node
      · exact shelvedMemoOK_memoSet_zero i h
      · by_cases hst : node.status = Status.shelved
        · simp only [hst, if_true]
          exact shelvedMemoOK_memoSet_zero i h
        · by_cases htr : i ∈ trail
          · simpa [hst, htr] using h
          · simp only [hst, htr, if_false, if_true, ite_false, ite_true]
            have hfold : ∀ (cs : List Nat) (acc : Totals × Memo),
                ShelvedMemoOK s acc.2 →
                ShelvedMemoOK s ((cs.foldl (childStep s fuel (i :: trail)) acc)).2 := by
              intro cs
              induction cs with
              | nil => intro acc hacc; exact hacc
              | cons c rest ihc =>
                intro acc hacc
                simp only [List.foldl_cons]
                exact ihc _ (ih c (i :: trail) acc.2 hacc)
            exact shelvedMemoOK_memoSet_nonshelved _ (hfold _ _ h) hget hst
    · exact h

/-- At a shelved (or missing) node, `totalFor` returns the zero total,
provided the memo respects the shelved-zero invariant. -/
theorem totalFor_value_shelved (s : AppState) (fuel : Nat) (i : Nat)
    (trail : List Nat) (m : Memo) (nd : Node) (h : ShelvedMemoOK s m)
    (hget : nodesByIdGet s.nodes i = some nd)
    (hst : nd.status = Status.shelved) :
    (totalFor s fuel i trail m).1 = ⟨0, 0⟩ := by
  cases fuel with
  | zero => rfl
  | succ fuel =>
    rw [totalFor_succ]
    rcases hmem : memoGet m i with _ | t
    · rw [hget]
      simp [hst]
    · simpa using h i nd t hget hst hmem

theorem memoGet_memoSet_isSome {m : Memo} {i : Nat} (j : Nat) (v : Totals)
    (h : (memoGet m i).isSome) : (memoGet (memoSet m j v) i).isSome := by
  by_cases hij : i = j
  · subst hij; rw [memoGet_memoSet_self]; rfl
  · rwa [memoGet_memoSet_ne m j i v hij]

/-- `totalsGet` and `memoGet` are literally the same lookup. -/
theorem totalsGet_eq_memoGet : totalsGet = memoGet := rfl

/-- The fold of `computeTotalsPass` keeps the shelved-zero invariant on both
the memo and the accumulated `totalsById` list. -/
theorem pass_fold_shelved (s : AppState) (fuel : Nat) :
    ∀ (nodes' : List Node) (acc : List (Nat × Totals) × Memo),
      ShelvedMemoOK s acc.2 → ShelvedMemoOK s acc.1 →
      ShelvedMemoOK s ((nodes'.foldl
          (fun acc node =>
            let r := totalFor s fuel node.id [] acc.2
            ((node.id, r.1) :: acc.1, r.2)) acc)).2 ∧
      ShelvedMemoOK s ((nodes'.foldl
          (fun acc node =>
            let r := totalFor s fuel node.id [] acc.2
            ((node.id, r.1) :: acc.1, r.2)) acc)).1 := by
  intro nodes'
  induction nodes' with
  | nil => intro acc h2 h1; exact ⟨h2, h1⟩
  | cons node rest ih =>
    intro acc h2 h1
    simp only [List.foldl_cons]
    apply ih
    · exact totalFor_preserves_shelvedMemoOK s fuel node.id [] acc.2 h2
    · intro j nd t hget hst hmem
      by_cases hj : j = node.id
      · subst hj
        rw [show ((node.id, (totalFor s fuel node.id [] acc.2).1) :: acc.1)
              = memoSet acc.1 node.id (totalFor s fuel node.id [] acc.2).1 from rfl,
            memoGet_memoSet_self] at hmem
        have hv := totalFor_value_shelved s fuel node.id [] acc.2 nd h2 hget hst
        rw [← Option.some_inj.mp hmem]
        exact hv
      · rw [show ((node.id, (totalFor s fuel node.id [] acc.2).1) :: acc.1)
              = memoSet acc.1 node.id (totalFor s fuel node.id [] acc.2).1 from rfl,
            memoGet_memoSet_ne _ _ _ _ hj] at hmem
        exact h1 j nd t hget hst hmem

/-- Every node of the pass ends up with an entry in `totalsById`. -/
theorem pass_fold_isSome (s : AppState) (fuel : Nat) :
    ∀ (nodes' : List Node) (acc : List (Nat × Totals) × Memo) (i : Nat),
      (i ∈ nodes'.map (·.id) ∨ (memoGet acc.1 i).isSome) →
      (memoGet ((nodes'.foldl
          (fun acc node =>
            let r := totalFor s fuel node.id [] acc.2
            ((node.id, r.1) :: acc.1, r.2)) acc)).1 i).isSome := by
  intro nodes'
  induction nodes' with
  | nil =>
    intro acc i h
    rcases h with h | h
    · cases h
    · exact h
  | cons node rest ih =>
    intro acc i h
    simp only [List.foldl_cons]
    apply ih
    rcases h with h | h
    · rw [List.map_cons] at h
      rcases List.mem_cons.mp h with he | hmem
      · right
        rw [show ((node.id, (totalFor s fuel node.id [] acc.2).1) :: acc.1)
              = memoSet acc.1 node.id (totalFor s fuel node.id [] acc.2).1 from rfl]
        rw [he, memoGet_memoSet_self]
        rfl
      · left; exact hmem
    · right
      exact memoGet_memoSet_isSome _ _ h

/-- Claim C1: for every node `n` with `status = Shelved`, `computeTotals`
assigns `totals[n] = {cost: 0, time: 0}` regardless of `n`'s own or its
descendants' estimates, so every ancestor's sum adds this memoized zero; and
in the A→B→C chain with B shelved, `totals[B] = {0,0}`, `totals[A] = {100,0}`
(C's cost does not propagate past B to A) while C, queried directly as its
own root, still receives its own unreduced total `{25,0}`. -/
theorem rollup_shelved_zero_cut :
    (∀ (s : AppState) (n : Node), (s.nodes.map (·.id)).Nodup →
        n ∈ s.nodes → n.status = Status.shelved →
        totalsGet (computeTotals s) n.id = some ⟨0, 0⟩) ∧
      totalsGet (computeTotals chainShelvedB) 2 = some ⟨0, 0⟩ ∧
      totalsGet (computeTotals chainShelvedB) 1 = some ⟨100, 0⟩ ∧
      totalsGet (computeTotals chainShelvedB) 3 = some ⟨25, 0⟩ := by
  refine ⟨?_, ?_, ?_, ?_⟩
  · intro s n hnd hmem hst
    have hget := nodesByIdGet_of_nodup s.nodes n hnd hmem
    have hinv := pass_fold_shelved s (s.nodes.length + 1) s.nodes ([], [])
      (fun _ _ _ _ _ h => by cases h) (fun _ _ _ _ _ h => by cases h)
    have hsome := pass_fold_isSome s (s.nodes.length + 1) s.nodes ([], []) n.id
      (Or.inl (List.mem_map_of_mem (·.id) hmem))
    rcases Option.isSome_iff_exists.mp hsome with ⟨t, ht⟩
    have hzero := hinv.2 n.id n t hget hst ht
    rw [totalsGet_eq_memoGet]
    show memoGet (computeTotalsPass s (s.nodes.length + 1)).1 n.id = some ⟨0, 0⟩
    rw [show (computeTotalsPass s (s.nodes.length + 1)).1
          = (s.nodes.foldl (fun acc node =>
              let r := totalFor s (s.nodes.length + 1) node.id [] acc.2
              ((node.id, r.1) :: acc.1, r.2)) ([], [])).1 from rfl]
    rw [ht, hzero]
  · norm_num [computeTotals, computeTotalsPass, totalFor, memoGet, memoSet,
      totalsGet, nodesByIdGet, childrenOf, chainShelvedB, mkNode]
  · norm_num [computeTotals, computeTotalsPass, totalFor, memoGet, memoSet,
      totalsGet, nodesByIdGet, childrenOf, chainShelvedB, mkNode]
  · norm_num [computeTotals, computeTotalsPass, totalFor, memoGet, memoSet,
      totalsGet, nodesByIdGet, childrenOf, chainShelvedB, mkNode]

/-- Witness for `rollup_shelved_zero_cut`: the shelved node B of the chain
receives the zero total. -/
theorem rollup_shelved_zero_cut_witness :
    totalsGet (computeTotals chainShelvedB) 2 = some ⟨0, 0⟩ :=
  rollup_shelved_zero_cut.1 chainShelvedB (mkNode 2 50 0 .shelved)
    (by norm_num [chainShelvedB, mkNode])
    (by norm_num [chainShelvedB, mkNode])
    rfl

/-! ### Fuel adequacy for `totalFor` (claim C3)

The recursion depth of the JS `totalFor` is bounded because each recursive
call pushes a fresh node id onto the trail: the measure below (number of
node ids not on the trail) strictly decreases.  Hence any two fuels above
that measure give identical results, and the fuel `s.nodes.length + 1` used
by `computeTotals` is always adequate. -/

/-- The set of node ids of a state. -/
def nodeIds (s : AppState) : Finset Nat := (s.nodes.map (·.id)).toFinset

/-- The count of node ids not on the trail: an upper bound on the remaining
recursion depth of `totalFor`. -/
def freeCount (s : AppState) (trail : List Nat) : Nat :=
  (nodeIds s \ trail.toFinset).card

theorem mem_nodeIds_of_get {s : AppState} {i : Nat} {nd : Node}
    (h : nodesByIdGet s.nodes i = some nd) : i ∈ nodeIds s := by
  by_contra hni
  have hnil : s.nodes.filter (fun nd => nd.id == i) = [] :=
    filter_id_eq_nil _ _ (by simpa [nodeIds, List.mem_toFinset] using hni)
  rw [nodesByIdGet, hnil] at h
  cases h

theorem freeCount_cons_lt (s : AppState) {i : Nat} (trail : List Nat)
    (hi : i ∈ nodeIds s) (htr : i ∉ trail) :
    freeCount s (i :: trail) < freeCount s trail := by
  unfold freeCount
  have h1 : (i :: trail).toFinset = insert i trail.toFinset := by
    simp [List.toFinset_cons]
  have hmem : i ∈ nodeIds s \ trail.toFinset :=
    Finset.mem_sdiff.mpr ⟨hi, by simpa using htr⟩
  rw [h1, Finset.sdiff_insert, Finset.card_erase_of_mem hmem]
  exact Nat.sub_lt (Finset.card_pos.mpr ⟨i, hmem⟩) one_pos

theorem foldl_childStep_congr (s : AppState) (a b : Nat) (tr : List Nat)
    (h : ∀ (c : Nat) (m : Memo), totalFor s a c tr m = totalFor s b c tr m) :
    ∀ (cs : List Nat) (acc : Totals × Memo),
      cs.foldl (childStep s a tr) acc = cs.foldl (childStep s b tr) acc := by
  intro cs
  induction cs with
  | nil => intro acc; rfl
  | cons c rest ih =>
    intro acc
    simp only [List.foldl_cons]
    rw [show childStep s a tr acc c = childStep s b tr acc c by
      simp only [childStep, h c acc.2]]
    exact ih _

/-- Any two fuels strictly above the free-id count give the same result:
the fuel never truncates a real computation. -/
theorem totalFor_fuel_congr (s : AppState) :
    ∀ (f₁ f₂ i : Nat) (trail : List Nat) (m : Memo),
      freeCount s trail < f₁ → freeCount s trail < f₂ →
      totalFor s f₁ i trail m = totalFor s f₂ i trail m := by
  intro f₁
  induction f₁ with
  | zero => intro f₂ i trail m h₁ _; cases h₁
  | succ a ih =>
    intro f₂ i trail m h₁ h₂
    cases f₂ with
    | zero => cases h₂
    | succ b =>
      rw [totalFor_succ, totalFor_succ]
      rcases hmem : memoGet m i with _ | t
      · rcases hget : nodesByIdGet s.nodes i with _ | node
        · rfl
        · by_cases hst : node.status = Status.shelved
          · simp [hst]
          · by_cases htr : i ∈ trail
            · simp [hst, htr]
            · simp only [hst, htr, ite_false, ite_true, if_false, if_true]
              have hlt := freeCount_cons_lt s trail (mem_nodeIds_of_get hget) htr
              have hcall : ∀ (c : Nat) (m' : Memo),
                  totalFor s a c (i :: trail) m' = totalFor s b c (i :: trail) m' := by
                intro c m'
                exact ih b c (i :: trail) m'
                  (Nat.lt_of_lt_of_le hlt (Nat.lt_succ_iff.mp h₁))
                  (Nat.lt_of_lt_of_le hlt (Nat.lt_succ_iff.mp h₂))
              rw [foldl_childStep_congr s a b (i :: trail) hcall]
      · rfl

theorem freeCount_nil_lt (s : AppState) {fuel : Nat}
    (h : s.nodes.length + 1 ≤ fuel) : freeCount s [] < fuel := by
  have h1 : freeCount s [] ≤ s.nodes.length := by
    unfold freeCount
    calc (nodeIds s \ ([] : List Nat).toFinset).card
        ≤ (nodeIds s).card := Finset.card_le_card (Finset.sdiff_subset)
      _ ≤ (s.nodes.map (·.id)).length := List.toFinset_card_le _
      _ = s.nodes.length := List.length_map _ _
  omega

/-- Claim C3: `computeTotals` terminates on every finite node/link list —
formally, the fueled pass is independent of the fuel once the fuel exceeds
the node count (so the recursion depth is really bounded and the fuel used
by `computeTotals` computes the full fixpoint), including on graphs with
self-loops, longer cycles, and multiple incoming edges — and it yields a
`{cost, time}` value for every node. -/
theorem rollup_cycle_termination :
    (∀ (s : AppState) (fuel : Nat), s.nodes.length + 1 ≤ fuel →
        (computeTotalsPass s fuel).1 = computeTotals s) ∧
      ∀ (s : AppState) (n : Node), n ∈ s.nodes →
        ∃ t : Totals, totalsGet (computeTotals s) n.id = some t := by
  constructor
  · intro s fuel hfuel
    unfold computeTotals computeTotalsPass
    have hcall : ∀ (i : Nat) (m : Memo),
        totalFor s fuel i [] m = totalFor s (s.nodes.length + 1) i [] m := by
      intro i m
      exact totalFor_fuel_congr s fuel (s.nodes.length + 1) i [] m
        (freeCount_nil_lt s hfuel) (freeCount_nil_lt s (le_refl _))
    simp only [hcall]
  · intro s n hmem
    exact Option.isSome_iff_exists.mp
      (pass_fold_isSome s (s.nodes.length + 1) s.nodes ([], []) n.id
        (Or.inl (List.mem_map_of_mem (·.id) hmem)))

/-- A graph with a self-loop on node 1, a 2↔3 cycle, and node 3 having two
incoming edges. -/
def cyclicState : AppState :=
  ⟨[mkNode 1 10 1 .considering, mkNode 2 20 2 .considering,
    mkNode 3 30 3 .considering],
   [⟨1, 1⟩, ⟨2, 3⟩, ⟨3, 2⟩, ⟨1, 3⟩]⟩

/-- Witness for `rollup_cycle_termination` on the cyclic graph. -/
theorem rollup_cycle_termination_witness :
    (computeTotalsPass cyclicState 9).1 = computeTotals cyclicState ∧
      ∃ t : Totals, totalsGet (computeTotals cyclicState) 2 = some t :=
  ⟨rollup_cycle_termination.1 cyclicState 9 (by norm_num [cyclicState]),
   rollup_cycle_termination.2 cyclicState (mkNode 2 20 2 .considering)
     (by norm_num [cyclicState, mkNode])⟩

/-! ### The cycle guard and memoization order (claim C4) -/

/-- A two-node cycle 1↔2 with node 1 listed first. -/
def twoCycleAB : AppState :=
  ⟨[mkNode 1 100 0 .considering, mkNode 2 50 0 .considering],
   [⟨1, 2⟩, ⟨2, 1⟩]⟩

/-- The same two-node cycle with node 2 listed first. -/
def twoCycleBA : AppState :=
  ⟨[mkNode 2 50 0 .considering, mkNode 1 100 0 .considering],
   [⟨1, 2⟩, ⟨2, 1⟩]⟩

/-- Claim C4 is false as stated: in the 1↔2 cycle visited in order [1, 2],
node 2's final total is `{50,0}` although its expansion along a non-cyclic
path (as its own root, fresh memo) yields `{150,0}`; visiting in order
[2, 1] instead stores `{150,0}` for node 2, so the final totals of cycle
members do depend on the visit order. -/
theorem rollup_cycle_order_counterexample :
    totalsGet (computeTotals twoCycleAB) 2 = some ⟨50, 0⟩ ∧
      (totalFor twoCycleAB 3 2 [] []).1 = ⟨150, 0⟩ ∧
      totalsGet (computeTotals twoCycleBA) 2 = some ⟨150, 0⟩ ∧
      totalsGet (computeTotals twoCycleAB) 2 ≠ totalsGet (computeTotals twoCycleBA) 2 := by
  refine ⟨?_, ?_, ?_, ?_⟩ <;>
    norm_num [computeTotals, computeTotalsPass, totalFor, memoGet, memoSet,
      totalsGet, nodesByIdGet, childrenOf, twoCycleAB, twoCycleBA, mkNode]

/-- Claim C4, amended: when a child id already on the current recursion trail
is encountered, `{0,0}` is returned for that branch and the memo is left
unchanged, so the node at the top of a cyclic expansion still computes and
memoizes its full total (in the 1↔2 cycle visited in order [1, 2], node 1
gets `{150,0}`); but nodes memoized during another node's expansion store
cycle-truncated totals (node 2 stores `{50,0}`), so for nodes on a cycle the
final totals depend on the order in which `computeTotals` visits them. -/
theorem rollup_cycle_guard_amended :
    (∀ (s : AppState) (fuel i : Nat) (trail : List Nat) (m : Memo) (node : Node),
        memoGet m i = none → nodesByIdGet s.nodes i = some node →
        ¬ node.status = Status.shelved → i ∈ trail →
        totalFor s fuel i trail m = (⟨0, 0⟩, m)) ∧
      totalsGet (computeTotals twoCycleAB) 1 = some ⟨150, 0⟩ ∧
      totalsGet (computeTotals twoCycleAB) 2 = some ⟨50, 0⟩ := by
  refine ⟨?_, ?_, ?_⟩
  · intro s fuel i trail m node hmem hget hst htr
    cases fuel with
    | zero => rfl
    | succ fuel =>
      rw [totalFor_succ, hmem, hget]
      simp [hst, htr]
  · norm_num [computeTotals, computeTotalsPass, totalFor, memoGet, memoSet,
      totalsGet, nodesByIdGet, childrenOf, twoCycleAB, mkNode]
  · norm_num [computeTotals, computeTotalsPass, totalFor, memoGet, memoSet,
      totalsGet, nodesByIdGet, childrenOf, twoCycleAB, mkNode]

/-- Witness for `rollup_cycle_guard_amended`: the guard fires for node 1 on
trail [1] of `twoCycleAB` and does not touch the memo. -/
theorem rollup_cycle_guard_amended_witness :
    totalFor twoCycleAB 5 1 [1] [] = (⟨0, 0⟩, []) :=
  rollup_cycle_guard_amended.1 twoCycleAB 5 1 [1] []
    (mkNode 1 100 0 .considering)
    rfl
    (by norm_num [twoCycleAB, nodesByIdGet, mkNode])
    (by norm_num [mkNode])
    (List.mem_singleton.mpr rfl)

/-! ### Rollup additivity on acyclic, non-shelved regions (claim C2) -/

/-- Reachability along `childrenMap` edges. -/
def Reaches (links : List Link) (a b : Nat) : Prop :=
  Relation.ReflTransGen (fun u v => v ∈ childrenOf links u) a b

theorem reaches_child {links : List Link} {a x c : Nat}
    (h : Reaches links a x) (hc : c ∈ childrenOf links x) :
    Reaches links a c :=
  Relation.ReflTransGen.tail h hc

/-- The region reachable from `root` consists of existing, non-shelved nodes
and is acyclic, witnessed by a rank function decreasing along edges. -/
def RegionOK (s : AppState) (root : Nat) (ρ : Nat → Nat) : Prop :=
  (∀ x, Reaches s.links root x →
      ∃ ndx, nodesByIdGet s.nodes x = some ndx ∧ ¬ ndx.status = Status.shelved) ∧
    ∀ x c, Reaches s.links root x → c ∈ childrenOf s.links x → ρ c < ρ x

theorem rank_le_of_reaches {s : AppState} {root : Nat} {ρ : Nat → Nat}
    (hreg : RegionOK s root ρ) {a b : Nat} (hab : Reaches s.links a b)
    (hra : Reaches s.links root a) : ρ b ≤ ρ a := by
  induction hab with
  | refl => exact le_refl _
  | tail hab' hstep ih =>
    exact le_trans
      (le_of_lt (hreg.2 _ _ (Relation.ReflTransGen.trans hra hab') hstep)) ih

/-- Reference rollup of an acyclic region: own estimates plus the recursive
totals of the `childrenMap` bucket, by structural recursion on fuel.  This is
a proof-internal reference function, compared against `totalFor` below. -/
def treeTotal (s : AppState) : Nat → Nat → Totals
  | 0, _ => ⟨0, 0⟩
  | fuel + 1, i =>
    match nodesByIdGet s.nodes i with
    | none => ⟨0, 0⟩
    | some node =>
      (childrenOf s.links i).foldl
        (fun acc c =>
          let r := treeTotal s fuel c
          ⟨acc.cost + r.cost, acc.time + r.time⟩)
        ⟨node.estimatedCost, node.estimatedTime⟩

/-- The fold step of `treeTotal`, named for proofs. -/
def treeStep (s : AppState) (fuel : Nat) (acc : Totals) (c : Nat) : Totals :=
  let r := treeTotal s fuel c
  ⟨acc.cost + r.cost, acc.time + r.time⟩

theorem treeTotal_succ (s : AppState) (fuel i : Nat) :
    treeTotal s (fuel + 1) i =
      match nodesByIdGet s.nodes i with
      | none => ⟨0, 0⟩
      | some node =>
        (childrenOf s.links i).foldl (treeStep s fuel)
          ⟨node.estimatedCost, node.estimatedTime⟩ := rfl

theorem foldl_treeStep_congr (s : AppState) (a b : Nat) :
    ∀ (cs : List Nat), (∀ c ∈ cs, treeTotal s a c = treeTotal s b c) →
      ∀ init, cs.foldl (treeStep s a) init = cs.foldl (treeStep s b) init := by
  intro cs
  induction cs with
  | nil => intro _ init; rfl
  | cons c rest ih =>
    intro h init
    simp only [List.foldl_cons]
    rw [show treeStep s a init c = treeStep s b init c by
      simp only [treeStep, h c (List.mem_cons_self c rest)]]
    exact ih (fun c' hc' => h c' (List.mem_cons_of_mem c hc')) _

theorem foldl_treeStep_eq_sum (s : AppState) (fuel : Nat) :
    ∀ (cs : List Nat) (init : Totals),
      cs.foldl (treeStep s fuel) init =
        ⟨init.cost + (cs.map (fun c => (treeTotal s fuel c).cost)).sum,
         init.time + (cs.map (fun c => (treeTotal s fuel c).time)).sum⟩ := by
  intro cs
  induction cs with
  | nil => intro init; simp
  | cons c rest ih =>
    intro init
    simp only [List.foldl_cons, List.map_cons, List.sum_cons]
    rw [ih]
    simp only [treeStep]
    congr 1 <;> ring

/-- On a good region, `treeTotal` is independent of any fuel above the rank. -/
theorem treeTotal_region_congr {s : AppState} {root : Nat} {ρ : Nat → Nat}
    (hreg : RegionOK s root ρ) :
    ∀ (f₁ f₂ x : Nat), Reaches s.links root x → ρ x < f₁ → ρ x < f₂ →
      treeTotal s f₁ x = treeTotal s f₂ x := by
  intro f₁
  induction f₁ with
  | zero => intro f₂ x _ h₁ _; cases h₁
  | succ a ih =>
    intro f₂ x hx h₁ h₂
    cases f₂ with
    | zero => cases h₂
    | succ b =>
      rw [treeTotal_succ, treeTotal_succ]
      rcases hget : nodesByIdGet s.nodes x with _ | node
      · rfl
      · exact foldl_treeStep_congr s a b _
          (fun c hc => ih b c (reaches_child hx hc)
            (lt_of_lt_of_le (hreg.2 x c hx hc) (Nat.lt_succ_iff.mp h₁))
            (lt_of_lt_of_le (hreg.2 x c hx hc) (Nat.lt_succ_iff.mp h₂))) _

/-- Memo invariant for claim C2: every memo entry keyed in the region holds
the reference region total. -/
def RegionMemoOK (s : AppState) (root : Nat) (ρ : Nat → Nat) (m : Memo) : Prop :=
  ∀ x t, Reaches s.links root x → memoGet m x = some t →
    t = treeTotal s (ρ x + 1) x

/-- Trail invariant: every id on the trail has a nonempty path to the node
currently being expanded (it is a call-stack ancestor). -/
def TrailSep (links : List Link) (trail : List Nat) (x : Nat) : Prop :=
  ∀ y ∈ trail, ∃ c, c ∈ childrenOf links y ∧ Reaches links c x

/-- The central simulation for claim C2: on adequate fuel, `totalFor` keeps
the region memo invariant, and inside the region it returns exactly the
reference region total. -/
theorem region_main {s : AppState} {root : Nat} {ρ : Nat → Nat}
    (hreg : RegionOK s root ρ) :
    ∀ (fuel x : Nat) (trail : List Nat) (m : Memo),
      RegionMemoOK s root ρ m →
      TrailSep s.links trail x →
      freeCount s trail < fuel →
      RegionMemoOK s root ρ (totalFor s fuel x trail m).2 ∧
        (Reaches s.links root x →
          (totalFor s fuel x trail m).1 = treeTotal s (ρ x + 1) x) := by
  intro fuel
  induction fuel with
  | zero => intro x trail m _ _ hfc; cases hfc
  | succ a ih =>
    intro x trail m hm htrail hfc
    rw [totalFor_succ]
    rcases hmem : memoGet m x with _ | t
    case some => exact ⟨hm, fun hx => hm x t hx hmem⟩
    case none =>
    rcases hget : nodesByIdGet s.nodes x with _ | node
    case none =>
      have hnotreg : ¬ Reaches s.links root x := by
        intro hx
        rcases hreg.1 x hx with ⟨ndx, hndx, _⟩
        rw [hget] at hndx
        cases hndx
      refine ⟨?_, fun hx => absurd hx hnotreg⟩
      intro j t hj hjm
      by_cases hjx : j = x
      · exact absurd (hjx ▸ hj) hnotreg
      · rw [memoGet_memoSet_ne _ _ _ _ hjx] at hjm
        exact hm j t hj hjm
    case some =>
    dsimp only
    by_cases hst : node.status = Status.shelved
    · rw [if_pos hst]
      have hnotreg : ¬ Reaches s.links root x := by
        intro hx
        rcases hreg.1 x hx with ⟨ndx, hndx, hnds⟩
        rw [hget] at hndx
        exact hnds ((Option.some_inj.mp hndx) ▸ hst)
      refine ⟨?_, fun hx => absurd hx hnotreg⟩
      intro j t hj hjm
      by_cases hjx : j = x
      · exact absurd (hjx ▸ hj) hnotreg
      · rw [memoGet_memoSet_ne _ _ _ _ hjx] at hjm
        exact hm j t hj hjm
    · rw [if_neg hst]
      by_cases htr : x ∈ trail
      · rw [if_pos htr]
        have hnotreg : ¬ Reaches s.links root x := by
          intro hx
          rcases htrail x htr with ⟨c, hc, hcx⟩
          have hrc : Reaches s.links root c := reaches_child hx hc
          have h1 : ρ x ≤ ρ c := rank_le_of_reaches hreg hcx hrc
          have h2 : ρ c < ρ x := hreg.2 x c hx hc
          omega
        exact ⟨hm, fun hx => absurd hx hnotreg⟩
      · rw [if_neg htr]
        dsimp only
        have hxid : x ∈ nodeIds s := mem_nodeIds_of_get hget
        have hfc' : freeCount s (x :: trail) < a :=
          lt_of_lt_of_le (freeCount_cons_lt s trail hxid htr)
            (Nat.lt_succ_iff.mp hfc)
        have htrailc : ∀ c, c ∈ childrenOf s.links x →
            TrailSep s.links (x :: trail) c := by
          intro c hc y hy
          rcases List.mem_cons.mp hy with rfl | hyt
          · exact ⟨c, hc, Relation.ReflTransGen.refl⟩
          · rcases htrail y hyt with ⟨c', hc', hr⟩
            exact ⟨c', hc', Relation.ReflTransGen.tail hr hc⟩
        have hfold : ∀ (cs : List Nat), (∀ c ∈ cs, c ∈ childrenOf s.links x) →
            ∀ (acc : Totals × Memo), RegionMemoOK s root ρ acc.2 →
            RegionMemoOK s root ρ ((cs.foldl (childStep s a (x :: trail)) acc)).2 ∧
              (Reaches s.links root x →
                (cs.foldl (childStep s a (x :: trail)) acc).1 =
                  cs.foldl (treeStep s (ρ x)) acc.1) := by
          intro cs
          induction cs with
          | nil => intro _ acc hacc; exact ⟨hacc, fun _ => rfl⟩
          | cons c rest ihc =>
            intro hsub acc hacc
            have hc : c ∈ childrenOf s.links x := hsub c (List.mem_cons_self _ _)
            have hcall := ih c (x :: trail) acc.2 hacc (htrailc c hc) hfc'
            simp only [List.foldl_cons]
            have hrest := ihc (fun c' hc' => hsub c' (List.mem_cons_of_mem _ hc'))
              (childStep s a (x :: trail) acc c) hcall.1
            refine ⟨hrest.1, ?_⟩
            intro hx
            have hrc : Reaches s.links root c := reaches_child hx hc
            have hcv : (totalFor s a c (x :: trail) acc.2).1 =
                treeTotal s (ρ c + 1) c := hcall.2 hrc
            have hcongr : treeTotal s (ρ c + 1) c = treeTotal s (ρ x) c :=
              treeTotal_region_congr hreg (ρ c + 1) (ρ x) c hrc
                (Nat.lt_succ_self _) (hreg.2 x c hx hc)
            have hstep : childStep s a (x :: trail) acc c =
                (treeStep s (ρ x) acc.1 c, (totalFor s a c (x :: trail) acc.2).2) := by
              simp only [childStep, treeStep, hcv, hcongr]
            rw [hrest.2 hx, hstep]
        rcases hfold (childrenOf s.links x) (fun _ h => h)
          (⟨node.estimatedCost, node.estimatedTime⟩, m) hm with ⟨hm2, hv2⟩
        constructor
        · intro j t hj hjm
          by_cases hjx : j = x
          · subst hjx
            rw [memoGet_memoSet_self] at hjm
            have hval : ((childrenOf s.links j).foldl (childStep s a (j :: trail))
                (⟨node.estimatedCost, node.estimatedTime⟩, m)).1 =
                treeTotal s (ρ j + 1) j := by
              rw [hv2 hj]
              rw [treeTotal_succ]
              simp only [hget]
            rw [← Option.some_inj.mp hjm]
            exact hval
          · rw [memoGet_memoSet_ne _ _ _ _ hjx] at hjm
            exact hm2 j t hj hjm
        · intro hx
          rw [hv2 hx, treeTotal_succ]
          simp only [hget]

/-- The full pass of `computeTotals` keeps the region invariant on both the
memo and the accumulated `totalsById` list. -/
theorem pass_fold_region {s : AppState} {root : Nat} {ρ : Nat → Nat}
    (hreg : RegionOK s root ρ) :
    ∀ (nodes' : List Node) (acc : List (Nat × Totals) × Memo),
      RegionMemoOK s root ρ acc.2 → RegionMemoOK s root ρ acc.1 →
      RegionMemoOK s root ρ ((nodes'.foldl
          (fun acc node =>
            let r := totalFor s (s.nodes.length + 1) node.id [] acc.2
            ((node.id, r.1) :: acc.1, r.2)) acc)).2 ∧
      RegionMemoOK s root ρ ((nodes'.foldl
          (fun acc node =>
            let r := totalFor s (s.nodes.length + 1) node.id [] acc.2
            ((node.id, r.1) :: acc.1, r.2)) acc)).1 := by
  intro nodes'
  induction nodes' with
  | nil => intro acc h2 h1; exact ⟨h2, h1⟩
  | cons node rest ihn =>
    intro acc h2 h1
    have hcall := region_main hreg (s.nodes.length + 1) node.id [] acc.2 h2
      (fun y hy => absurd hy (List.not_mem_nil y))
      (freeCount_nil_lt s (le_refl _))
    simp only [List.foldl_cons]
    apply ihn
    · exact hcall.1
    · intro j t hj hjm
      by_cases hjx : j = node.id
      · subst hjx
        rw [show ((node.id, (totalFor s (s.nodes.length + 1) node.id [] acc.2).1) :: acc.1)
              = memoSet acc.1 node.id
                  (totalFor s (s.nodes.length + 1) node.id [] acc.2).1 from rfl,
            memoGet_memoSet_self] at hjm
        rw [← Option.some_inj.mp hjm]
        exact hcall.2 hj
      · rw [show ((node.id, (totalFor s (s.nodes.length + 1) node.id [] acc.2).1) :: acc.1)
              = memoSet acc.1 node.id (totalFor s (s.nodes.length + 1) node.id [] acc.2).1 from rfl,
            memoGet_memoSet_ne _ _ _ _ hjx] at hjm
        exact h1 j t hj hjm

/-- Claim C2: for every non-shelved node `n` whose reachable region consists
of existing non-shelved nodes and is acyclic (rank function decreasing along
every `childrenMap` edge from a reachable node), the rolled-up total satisfies
`totals[n] = n.estimate + Σ totals[child]` over the direct children, for cost
and for time; in particular the A→B→C chain with costs 100/50/25 yields
`totals[C]=25`, `totals[B]=75`, `totals[A]=175`. -/
theorem rollup_additivity :
    (∀ (s : AppState) (n : Node) (ρ : Nat → Nat),
        (s.nodes.map (·.id)).Nodup →
        n ∈ s.nodes →
        (∀ x, Reaches s.links n.id x →
          ∃ ndx, nodesByIdGet s.nodes x = some ndx ∧
            ¬ ndx.status = Status.shelved) →
        (∀ x c, Reaches s.links n.id x → c ∈ childrenOf s.links x →
          ρ c < ρ x) →
        totalsGet (computeTotals s) n.id =
          some ⟨n.estimatedCost + ((childrenOf s.links n.id).map
                  (fun c => ((totalsGet (computeTotals s) c).getD ⟨0, 0⟩).cost)).sum,
                n.estimatedTime + ((childrenOf s.links n.id).map
                  (fun c => ((totalsGet (computeTotals s) c).getD ⟨0, 0⟩).time)).sum⟩) ∧
      totalsGet (computeTotals chainState) 3 = some ⟨25, 0⟩ ∧
      totalsGet (computeTotals chainState) 2 = some ⟨75, 0⟩ ∧
      totalsGet (computeTotals chainState) 1 = some ⟨175, 0⟩ := by
  refine ⟨?_, ?_, ?_, ?_⟩
  · intro s n ρ hnd hmem h1 h2
    have hreg : RegionOK s n.id ρ := ⟨h1, h2⟩
    have hinv := pass_fold_region hreg s.nodes ([], [])
      (fun _ _ _ h => by cases h) (fun _ _ _ h => by cases h)
    have hgetn : nodesByIdGet s.nodes n.id = some n :=
      nodesByIdGet_of_nodup s.nodes n hnd hmem
    -- the looked-up total of any region member is its reference total
    have hentry : ∀ x, Reaches s.links n.id x →
        totalsGet (computeTotals s) x = some (treeTotal s (ρ x + 1) x) := by
      intro x hx
      rcases h1 x hx with ⟨ndx, hndx, _⟩
      have hxids : x ∈ s.nodes.map (·.id) :=
        List.mem_toFinset.mp (mem_nodeIds_of_get hndx)
      have hsome := pass_fold_isSome s (s.nodes.length + 1) s.nodes ([], []) x
        (Or.inl hxids)
      rcases Option.isSome_iff_exists.mp hsome with ⟨t, ht⟩
      have := hinv.2 x t hx ht
      rw [totalsGet_eq_memoGet]
      show memoGet (computeTotalsPass s (s.nodes.length + 1)).1 x = _
      rw [show (computeTotalsPass s (s.nodes.length + 1)).1
            = (s.nodes.foldl (fun acc node =>
                let r := totalFor s (s.nodes.length + 1) node.id [] acc.2
                ((node.id, r.1) :: acc.1, r.2)) ([], [])).1 from rfl]
      rw [ht, this]
    have hself := hentry n.id Relation.ReflTransGen.refl
    rw [hself]
    have hunfold : treeTotal s (ρ n.id + 1) n.id =
        (childrenOf s.links n.id).foldl (treeStep s (ρ n.id))
          ⟨n.estimatedCost, n.estimatedTime⟩ := by
      rw [treeTotal_succ]
      simp only [hgetn]
    rw [hunfold, foldl_treeStep_eq_sum]
    have hchildval : ∀ c ∈ childrenOf s.links n.id,
        treeTotal s (ρ n.id) c =
          ((totalsGet (computeTotals s) c).getD ⟨0, 0⟩) := by
      intro c hc
      have hrc : Reaches s.links n.id c :=
        reaches_child Relation.ReflTransGen.refl hc
      rw [hentry c hrc]
      rw [treeTotal_region_congr hreg (ρ n.id) (ρ c + 1) c hrc
        (hreg.2 n.id c Relation.ReflTransGen.refl hc) (Nat.lt_succ_self _)]
      rfl
    have hmapc : (childrenOf s.links n.id).map
        (fun c => (treeTotal s (ρ n.id) c).cost) =
        (childrenOf s.links n.id).map
        (fun c => ((totalsGet (computeTotals s) c).getD ⟨0, 0⟩).cost) :=
      List.map_congr_left (fun c hc => by rw [hchildval c hc])
    have hmapt : (childrenOf s.links n.id).map
        (fun c => (treeTotal s (ρ n.id) c).time) =
        (childrenOf s.links n.id).map
        (fun c => ((totalsGet (computeTotals s) c).getD ⟨0, 0⟩).time) :=
      List.map_congr_left (fun c hc => by rw [hchildval c hc])
    rw [hmapc, hmapt]
  · norm_num [computeTotals, computeTotalsPass, totalFor, memoGet, memoSet,
      totalsGet, nodesByIdGet, childrenOf, chainState, mkNode]
  · norm_num [computeTotals, computeTotalsPass, totalFor, memoGet, memoSet,
      totalsGet, nodesByIdGet, childrenOf, chainState, mkNode]
  · norm_num [computeTotals, computeTotalsPass, totalFor, memoGet, memoSet,
      totalsGet, nodesByIdGet, childrenOf, chainState, mkNode]

/-- Two nodes 1→2 with costs 100 and 50: a concrete acyclic instance. -/
def pairState : AppState :=
  ⟨[mkNode 1 100 0 .considering, mkNode 2 50 0 .considering], [⟨1, 2⟩]⟩

theorem pairState_reach : ∀ x, Reaches pairState.links 1 x → x = 1 ∨ x = 2 := by
  intro x hx
  induction hx with
  | refl => exact Or.inl rfl
  | tail hy hstep ihy =>
    rcases ihy with rfl | rfl
    · right
      simpa [childrenOf, pairState] using hstep
    · exact absurd hstep (by simp [childrenOf, pairState])

/-- Witness for `rollup_additivity` at the two-node graph 1→2. -/
theorem rollup_additivity_witness :
    totalsGet (computeTotals pairState) 1 = some ⟨150, 0⟩ := by
  have h := rollup_additivity.1 pairState (mkNode 1 100 0 .considering)
    (fun i => 2 - i)
    (by norm_num [pairState, mkNode])
    (by norm_num [pairState, mkNode])
    (by
      intro x hx
      rcases pairState_reach x (by simpa [mkNode] using hx) with rfl | rfl
      · exact ⟨mkNode 1 100 0 .considering,
          by norm_num [pairState, nodesByIdGet, mkNode], by norm_num [mkNode]⟩
      · exact ⟨mkNode 2 50 0 .considering,
          by norm_num [pairState, nodesByIdGet, mkNode], by norm_num [mkNode]⟩)
    (by
      intro x c hx hc
      rcases pairState_reach x (by simpa [mkNode] using hx) with rfl | rfl
      · have : c = 2 := by simpa [childrenOf, pairState] using hc
        subst this
        norm_num
      · exact absurd hc (by simp [childrenOf, pairState]))
  simp only [mkNode] at h
  rw [h]
  norm_num [computeTotals, computeTotalsPass, totalFor, memoGet, memoSet,
    totalsGet, nodesByIdGet, childrenOf, pairState, mkNode]

/-! ### Node sizing (claims C5 and C10)

Embedding of the sizing portion of `render` (src/app.js lines 442-525):
the constants, `estimateFor`, `applySiblingSizing`, and the BFS sizing pass.
JS numbers are rationals; `0.35 = 7/20`, `0.75 = 3/4`, `0.55 = 11/20`. -/

/-- `NODE_RADIUS_RANGE = [min(170,120)/2, max(240,190)/2] = [60, 120]`;
`ROOT_NODE_RADIUS = 120 * 3`. -/
def ROOT_NODE_RADIUS : ℚ := 360

/-- `ESTIMATED_RATE`. -/
def ESTIMATED_RATE : ℚ := 100

/-- A `{radius, width, height}` entry of the `nodeSizes` map. -/
structure Size where
  radius : ℚ
  width : ℚ
  height : ℚ
deriving DecidableEq, Repr

/-- The `nodeSizes` JS `Map`, as a functional map. -/
abbrev SizeMap := Nat → Option Size

/-- `nodeSizes.set(i, v)`. -/
def sizeSet (mp : SizeMap) (i : Nat) (v : Size) : SizeMap :=
  fun j => if j = i then some v else mp j

/-- `mp.get(i)?.radius || fallback`: in JS a radius of `0` is falsy, so it
also selects the fallback. -/
def radiusOr (mp : SizeMap) (i : Nat) (fallback : ℚ) : ℚ :=
  match mp i with
  | some sz => if sz.radius = 0 then fallback else sz.radius
  | none => fallback

/-- `getRootId(incomingMap)`: the first node with no incoming links, else the
first node, else none. -/
def getRootId (s : AppState) : Option Nat :=
  match (s.nodes.filter (fun nd => (incomingOf s.links nd.id).isEmpty)).head? with
  | some nd => some nd.id
  | none => s.nodes.head?.map (·.id)

/-- `estimateFor(nodeId)` from `render`: rolled-up cost plus rolled-up time
times `ESTIMATED_RATE` (missing totals count as `{0,0}`). -/
def estimateFor (totalsById : List (Nat × Totals)) (i : Nat) : ℚ :=
  let t := (totalsGet totalsById i).getD ⟨0, 0⟩
  t.cost + t.time * ESTIMATED_RATE

/-- `Math.min(...values)` for the nonempty `values` array (the empty case is
unreachable behind the `childIds.length` guard). -/
def listMin : List ℚ → ℚ
  | [] => 0
  | v :: vs => vs.foldl min v

/-- `Math.max(...values)` for the nonempty `values` array. -/
def listMax : List ℚ → ℚ
  | [] => 0
  | v :: vs => vs.foldl max v

/-- `applySiblingSizing(parentId, childIds)` from `render` (src/app.js lines
465-492): linear interpolation of each child's radius between
`minChildRadius = max(0.35 * parentRadius, 36)` and
`maxChildRadius = 0.75 * parentRadius` by its estimate's position in the
sibling group's value range. -/
def applySiblingSizing (totalsById : List (Nat × Totals)) (parentId : Nat)
    (childIds : List Nat) (nodeSizes : SizeMap) : SizeMap :=
  if childIds.isEmpty then nodeSizes
  else
    let parentRadius := radiusOr nodeSizes parentId ROOT_NODE_RADIUS
    let maxChildRadius := parentRadius * (3 / 4)
    let minChildRadius := max (parentRadius * (7 / 20)) 36
    let values := childIds.map (estimateFor totalsById)
    let minValue := listMin values
    let maxValue := listMax values
    (childIds.enum).foldl
      (fun sizes p =>
        let scaleValue : ℚ :=
          if maxValue ≠ minValue then
            (values.getD p.1 0 - minValue) / (maxValue - minValue)
          else if childIds.length = 1 then 1
          else 1 / 2
        let radius := minChildRadius + (maxChildRadius - minChildRadius) * scaleValue
        sizeSet sizes p.2 ⟨radius, radius * 2, radius * 2⟩)
      nodeSizes

/-- The radius `applySiblingSizing` computes for a group member whose
estimate is `v` (reference form used by the lemmas below). -/
def groupRadius (totalsById : List (Nat × Totals)) (parentId : Nat)
    (childIds : List Nat) (nodeSizes : SizeMap) (v : ℚ) : ℚ :=
  let parentRadius := radiusOr nodeSizes parentId ROOT_NODE_RADIUS
  let maxChildRadius := parentRadius * (3 / 4)
  let minChildRadius := max (parentRadius * (7 / 20)) 36
  let values := childIds.map (estimateFor totalsById)
  let minValue := listMin values
  let maxValue := listMax values
  let scaleValue : ℚ :=
    if maxValue ≠ minValue then (v - minValue) / (maxValue - minValue)
    else if childIds.length = 1 then 1
    else 1 / 2
  minChildRadius + (maxChildRadius - minChildRadius) * scaleValue

theorem fold_sizeSet_not_mem (g : Nat × Nat → Size) :
    ∀ (ps : List (Nat × Nat)) (sizes : SizeMap) (a : Nat),
      (∀ p ∈ ps, p.2 ≠ a) →
      (ps.foldl (fun sz p => sizeSet sz p.2 (g p)) sizes) a = sizes a := by
  intro ps
  induction ps with
  | nil => intro sizes a _; rfl
  | cons p rest ih =>
    intro sizes a h
    simp only [List.foldl_cons]
    rw [ih _ a (fun q hq => h q (List.mem_cons_of_mem p hq))]
    simp [sizeSet, Ne.symm (h p (List.mem_cons_self p rest))]

theorem fold_sizeSet_mem (g : Nat × Nat → Size) (v : Size) :
    ∀ (ps : List (Nat × Nat)) (sizes : SizeMap) (a : Nat),
      (∀ p ∈ ps, p.2 = a → g p = v) → (∃ p ∈ ps, p.2 = a) →
      (ps.foldl (fun sz p => sizeSet sz p.2 (g p)) sizes) a = some v := by
  intro ps
  induction ps with
  | nil => intro _ _ _ h; rcases h with ⟨_, h, _⟩; cases h
  | cons p rest ih =>
    intro sizes a hg hex
    simp only [List.foldl_cons]
    by_cases hrest : ∃ q ∈ rest, q.2 = a
    · exact ih _ a (fun q hq => hg q (List.mem_cons_of_mem p hq)) hrest
    · have hpa : p.2 = a := by
        rcases hex with ⟨q, hq, hqa⟩
        rcases List.mem_cons.mp hq with rfl | hqr
        · exact hqa
        · exact absurd ⟨q, hqr, hqa⟩ hrest
      push_neg at hrest
      rw [fold_sizeSet_not_mem g rest _ a hrest]
      simp [sizeSet, hpa, hg p (List.mem_cons_self p rest) hpa]

/-- What `applySiblingSizing` stores for a member of the sibling group. -/
theorem applySiblingSizing_lookup (totalsById : List (Nat × Totals))
    (parentId : Nat) (childIds : List Nat) (nodeSizes : SizeMap) (a : Nat)
    (ha : a ∈ childIds) :
    applySiblingSizing totalsById parentId childIds nodeSizes a =
      some ⟨groupRadius totalsById parentId childIds nodeSizes
              (estimateFor totalsById a),
            groupRadius totalsById parentId childIds nodeSizes
              (estimateFor totalsById a) * 2,
            groupRadius totalsById parentId childIds nodeSizes
              (estimateFor totalsById a) * 2⟩ := by
  have hne : ¬ childIds.isEmpty := by
    cases childIds with
    | nil => cases ha
    | cons c cs => simp
  rw [applySiblingSizing, if_neg hne]
  apply fold_sizeSet_mem
  · intro p hp hpa
    have hget : childIds[p.1]? = some p.2 := by
      have : (p.1, p.2) ∈ childIds.enum := by simpa using hp
      exact List.mk_mem_enum_iff_getElem?.mp this
    have hvals : (childIds.map (estimateFor totalsById)).getD p.1 0
        = estimateFor totalsById a := by
      rw [List.getD_eq_getElem?_getD, List.getElem?_map, hget, hpa]
      rfl
    simp only [groupRadius, hvals]
  · rcases List.getElem?_of_mem ha with ⟨n, hn⟩
    exact ⟨(n, a), List.mk_mem_enum_iff_getElem?.mpr hn, rfl⟩

theorem listMin_le_of_mem : ∀ (vs : List ℚ) (v : ℚ), v ∈ vs → listMin vs ≤ v := by
  intro vs
  cases vs with
  | nil => intro v h; cases h
  | cons w ws =>
    intro v hv
    have key : ∀ (l : List ℚ) (init : ℚ),
        (∀ u ∈ l, l.foldl min init ≤ u) ∧ l.foldl min init ≤ init := by
      intro l
      induction l with
      | nil => intro init; exact ⟨fun u hu => absurd hu (List.not_mem_nil u), le_refl _⟩
      | cons x xs ihl =>
        intro init
        simp only [List.foldl_cons]
        refine ⟨?_, ?_⟩
        · intro u hu
          rcases List.mem_cons.mp hu with rfl | hu'
          · exact le_trans (ihl (min init u)).2 (min_le_right _ _)
          · exact (ihl (min init x)).1 u hu'
        · exact le_trans (ihl (min init x)).2 (min_le_left _ _)
    rcases List.mem_cons.mp hv with rfl | hv'
    · exact (key ws v).2
    · exact (key ws w).1 v hv'

theorem le_listMax_of_mem : ∀ (vs : List ℚ) (v : ℚ), v ∈ vs → v ≤ listMax vs := by
  intro vs
  cases vs with
  | nil => intro v h; cases h
  | cons w ws =>
    intro v hv
    have key : ∀ (l : List ℚ) (init : ℚ),
        (∀ u ∈ l, u ≤ l.foldl max init) ∧ init ≤ l.foldl max init := by
      intro l
      induction l with
      | nil => intro init; exact ⟨fun u hu => absurd hu (List.not_mem_nil u), le_refl _⟩
      | cons x xs ihl =>
        intro init
        simp only [List.foldl_cons]
        refine ⟨?_, ?_⟩
        · intro u hu
          rcases List.mem_cons.mp hu with rfl | hu'
          · exact le_trans (le_max_right _ _) (ihl (max init u)).2
          · exact (ihl (max init x)).1 u hu'
        · exact le_trans (le_max_left _ _) (ihl (max init x)).2
    rcases List.mem_cons.mp hv with rfl | hv'
    · exact (key ws v).2
    · exact (key ws w).1 v hv'

/-- A parent entry of radius 40: small enough that
`max(0.35 * 40, 36) = 36` exceeds `0.75 * 40 = 30`. -/
def smallParentSizes : SizeMap := sizeSet (fun _ => none) 5 ⟨40, 80, 80⟩

/-- Totals giving sibling 10 the estimate 100 and sibling 11 the estimate 0. -/
def smallParentTotals : List (Nat × Totals) := [(10, ⟨100, 0⟩), (11, ⟨0, 0⟩)]

/-- Claim C5 is false as stated: under a parent of radius 40 (so
`minChildRadius = 36 > 30 = maxChildRadius`), the sibling with the larger
estimate receives the SMALLER radius — interpolation runs downward once the
claimed floor crosses the ceiling. -/
theorem sizing_monotonicity_counterexample :
    estimateFor smallParentTotals 10 > estimateFor smallParentTotals 11 ∧
      applySiblingSizing smallParentTotals 5 [10, 11] smallParentSizes 10
        = some ⟨30, 60, 60⟩ ∧
      applySiblingSizing smallParentTotals 5 [10, 11] smallParentSizes 11
        = some ⟨36, 72, 72⟩ ∧
      ((applySiblingSizing smallParentTotals 5 [10, 11] smallParentSizes 10).getD
          ⟨0, 0, 0⟩).radius <
        ((applySiblingSizing smallParentTotals 5 [10, 11] smallParentSizes 11).getD
          ⟨0, 0, 0⟩).radius := by
  refine ⟨?_, ?_, ?_, ?_⟩ <;>
    norm_num [applySiblingSizing, sizeSet, radiusOr, estimateFor, totalsGet,
      ESTIMATED_RATE, ROOT_NODE_RADIUS, listMin, listMax, List.enum,
      List.enumFrom, smallParentSizes, smallParentTotals, min_def, max_def]

/-- Claim C5, amended: within one sibling group sized by a single
`applySiblingSizing` call, if `estimate(a) > estimate(b)` then
`radius(a) ≥ radius(b)` — provided `minChildRadius ≤ maxChildRadius`
(equivalently the parent radius is at least 48); for smaller parents the
interpolation direction reverses. -/
theorem sizing_monotonicity_amended :
    ∀ (totalsById : List (Nat × Totals)) (parentId : Nat)
      (childIds : List Nat) (nodeSizes : SizeMap) (a b : Nat),
      a ∈ childIds → b ∈ childIds →
      estimateFor totalsById a > estimateFor totalsById b →
      max (radiusOr nodeSizes parentId ROOT_NODE_RADIUS * (7 / 20)) 36 ≤
        radiusOr nodeSizes parentId ROOT_NODE_RADIUS * (3 / 4) →
      ∃ sza szb,
        applySiblingSizing totalsById parentId childIds nodeSizes a = some sza ∧
        applySiblingSizing totalsById parentId childIds nodeSizes b = some szb ∧
        szb.radius ≤ sza.radius := by
  intro t p cs sizes a b ha hb hest hminmax
  refine ⟨_, _, applySiblingSizing_lookup t p cs sizes a ha,
    applySiblingSizing_lookup t p cs sizes b hb, ?_⟩
  show groupRadius t p cs sizes (estimateFor t b) ≤
    groupRadius t p cs sizes (estimateFor t a)
  have hva : estimateFor t a ∈ cs.map (estimateFor t) :=
    List.mem_map_of_mem _ ha
  have hvb : estimateFor t b ∈ cs.map (estimateFor t) :=
    List.mem_map_of_mem _ hb
  have h1 : listMin (cs.map (estimateFor t)) ≤ estimateFor t b :=
    listMin_le_of_mem _ _ hvb
  have h2 : estimateFor t a ≤ listMax (cs.map (estimateFor t)) :=
    le_listMax_of_mem _ _ hva
  have hlt : listMin (cs.map (estimateFor t)) < listMax (cs.map (estimateFor t)) :=
    lt_of_le_of_lt h1 (lt_of_lt_of_le hest h2)
  have hne : listMax (cs.map (estimateFor t)) ≠ listMin (cs.map (estimateFor t)) :=
    ne_of_gt hlt
  simp only [groupRadius, if_pos hne]
  have hD : (0 : ℚ) < listMax (cs.map (estimateFor t)) -
      listMin (cs.map (estimateFor t)) := by linarith
  have hR : (0 : ℚ) ≤ radiusOr sizes p ROOT_NODE_RADIUS * (3 / 4) -
      max (radiusOr sizes p ROOT_NODE_RADIUS * (7 / 20)) 36 := by linarith
  have hsc : (estimateFor t b - listMin (cs.map (estimateFor t))) /
        (listMax (cs.map (estimateFor t)) - listMin (cs.map (estimateFor t))) ≤
      (estimateFor t a - listMin (cs.map (estimateFor t))) /
        (listMax (cs.map (estimateFor t)) - listMin (cs.map (estimateFor t))) :=
    div_le_div_of_nonneg_right (by linarith) (le_of_lt hD)
  have := mul_le_mul_of_nonneg_left hsc hR
  linarith

/-- Witness for `sizing_monotonicity_amended`: under a full-size parent
(radius 360, so the floor 126 is below the ceiling 270), the larger-estimate
sibling is at least as large. -/
theorem sizing_monotonicity_amended_witness :
    ∃ sza szb,
      applySiblingSizing smallParentTotals 1 [10, 11] (fun _ => none) 10 = some sza ∧
      applySiblingSizing smallParentTotals 1 [10, 11] (fun _ => none) 11 = some szb ∧
      szb.radius ≤ sza.radius :=
  sizing_monotonicity_amended smallParentTotals 1 [10, 11] (fun _ => none) 10 11
    (by norm_num) (by norm_num)
    (by norm_num [estimateFor, totalsGet, ESTIMATED_RATE, smallParentTotals])
    (by norm_num [radiusOr, ROOT_NODE_RADIUS, max_def])

/-! ### The full sizing pass of `render` (claim C10) -/

/-- The sizing BFS of `render`: dequeue a parent, size its `childrenMap`
bucket as one sibling group, enqueue unseen children.  Fueled; see
`sizingBFS_fuel_congr` for the adequacy of the fuel used below. -/
def sizingBFS (totalsById : List (Nat × Totals)) (links : List Link) :
    Nat → List Nat → List Nat → SizeMap → SizeMap
  | 0, _, _, sizes => sizes
  | _ + 1, [], _, sizes => sizes
  | fuel + 1, parentId :: rest, seen, sizes =>
    let children := childrenOf links parentId
    let sizes' := applySiblingSizing totalsById parentId children sizes
    let qs := children.foldl
      (fun (qs : List Nat × List Nat) c =>
        if c ∈ qs.2 then qs else (qs.1 ++ [c], c :: qs.2))
      (rest, seen)
    sizingBFS totalsById links fuel qs.1 qs.2 sizes'

/-- The sizing portion of `render` (src/app.js lines 449-525): fixed root
size, BFS sibling sizing from the root, the extra-roots group, and the
`0.55 * ROOT_NODE_RADIUS` fallback for any node left unsized. -/
def computeSizes (s : AppState) (totalsById : List (Nat × Totals)) : SizeMap :=
  let rootId := getRootId s
  let sizes1 : SizeMap :=
    match rootId with
    | some r => sizeSet (fun _ => none) r
        ⟨ROOT_NODE_RADIUS, ROOT_NODE_RADIUS * 2, ROOT_NODE_RADIUS * 2⟩
    | none => fun _ => none
  let sizes2 :=
    match rootId with
    | some r => sizingBFS totalsById s.links (s.links.length + 2) [r] [r] sizes1
    | none => sizes1
  let roots := s.nodes.filter (fun nd => (incomingOf s.links nd.id).isEmpty)
  let extraRoots := roots.filter (fun nd => !(some nd.id == rootId))
  let sizes3 :=
    if extraRoots.isEmpty then sizes2
    else
      applySiblingSizing totalsById
        (match rootId with
         | some r => r
         | none => ((extraRoots.map (·.id)).headD 0))
        (extraRoots.map (·.id)) sizes2
  s.nodes.foldl
    (fun sz node =>
      match sz node.id with
      | some _ => sz
      | none => sizeSet sz node.id
          ⟨ROOT_NODE_RADIUS * (11 / 20), ROOT_NODE_RADIUS * (11 / 20) * 2,
           ROOT_NODE_RADIUS * (11 / 20) * 2⟩)
    sizes3

/-- Root 1 with children 2 (cost 100), 3 (cost 50) and a link to the absent
id 99. -/
def danglingState : AppState :=
  ⟨[mkNode 1 0 0 .considering, mkNode 2 100 0 .considering,
    mkNode 3 50 0 .considering],
   [⟨1, 2⟩, ⟨1, 3⟩, ⟨1, 99⟩]⟩

/-- The same state with the dangling link removed. -/
def danglingFree : AppState :=
  ⟨[mkNode 1 0 0 .considering, mkNode 2 100 0 .considering,
    mkNode 3 50 0 .considering],
   [⟨1, 2⟩, ⟨1, 3⟩]⟩

/-- Claim C10 is false as stated: id 99 is absent from the node set, yet the
link 1→99 changes the sizing of the present node 3 — the dangling id joins
1's sibling group with estimate 0, dragging the group minimum to 0, so node
3's radius is 198 with the dangling link and 126 without it. -/
theorem dangling_link_counterexample :
    nodesByIdGet danglingState.nodes 99 = none ∧
      danglingState.links.filter (fun lk =>
        (nodesByIdGet danglingState.nodes lk.fromId).isSome &&
        (nodesByIdGet danglingState.nodes lk.toId).isSome) = danglingFree.links ∧
      computeSizes danglingState (computeTotals danglingState) 3
        = some ⟨198, 396, 396⟩ ∧
      computeSizes danglingFree (computeTotals danglingFree) 3
        = some ⟨126, 252, 252⟩ := by
  refine ⟨?_, ?_, ?_, ?_⟩
  · norm_num [danglingState, nodesByIdGet, mkNode]
  · norm_num [danglingState, danglingFree, nodesByIdGet, mkNode]
  · norm_num [computeSizes, sizingBFS, applySiblingSizing, sizeSet, radiusOr,
      estimateFor, totalsGet, ESTIMATED_RATE, ROOT_NODE_RADIUS, listMin,
      listMax, List.enum, List.enumFrom, getRootId, incomingOf, childrenOf,
      computeTotals, computeTotalsPass, totalFor, memoGet, memoSet,
      nodesByIdGet, danglingState, mkNode, min_def, max_def]
  · norm_num [computeSizes, sizingBFS, applySiblingSizing, sizeSet, radiusOr,
      estimateFor, totalsGet, ESTIMATED_RATE, ROOT_NODE_RADIUS, listMin,
      listMax, List.enum, List.enumFrom, getRootId, incomingOf, childrenOf,
      computeTotals, computeTotalsPass, totalFor, memoGet, memoSet,
      nodesByIdGet, danglingFree, mkNode, min_def, max_def]

/-- The state with every link touching an absent node id removed. -/
def dropDangling (s : AppState) : AppState :=
  ⟨s.nodes, s.links.filter (fun lk =>
    (nodesByIdGet s.nodes lk.fromId).isSome &&
    (nodesByIdGet s.nodes lk.toId).isSome)⟩

theorem nodesByIdGet_isSome_of_mem {nodes : List Node} {n : Node}
    (h : n ∈ nodes) : (nodesByIdGet nodes n.id).isSome := by
  have hmem : n ∈ nodes.filter (fun nd => nd.id == n.id) :=
    List.mem_filter.mpr ⟨h, by simp⟩
  rcases List.mem_iff_append.mp hmem with ⟨l₁, l₂, hsplit⟩
  rw [nodesByIdGet, hsplit]
  cases hl : (n :: l₂).getLast? with
  | none => simp [List.getLast?] at hl
  | some nd => simp [List.getLast?_append_of_ne_nil, hl]

theorem childrenOf_cons (lk : Link) (links : List Link) (x : Nat) :
    childrenOf (lk :: links) x =
      if lk.fromId == x then lk.toId :: childrenOf links x
      else childrenOf links x := by
  cases hp : (lk.fromId == x) with
  | true => simp [childrenOf, List.filter_cons, hp]
  | false => simp [childrenOf, List.filter_cons, hp]

theorem childrenOf_filter_eq (x : Nat) (P : Link → Bool) (Q : Nat → Bool) :
    ∀ (links : List Link),
      (∀ lk ∈ links, lk.fromId = x → P lk = Q lk.toId) →
      childrenOf (links.filter P) x = (childrenOf links x).filter Q := by
  intro links
  induction links with
  | nil => intro _; rfl
  | cons lk rest ih =>
    intro h
    have hrest := ih (fun l hl hf => h l (List.mem_cons_of_mem _ hl) hf)
    rw [List.filter_cons, childrenOf_cons]
    cases hp : P lk with
    | false =>
      rw [if_neg (by simp [hp]), hrest]
      by_cases hfrom : lk.fromId = x
      · have hq : Q lk.toId = false := by
          rw [← h lk (List.mem_cons_self _ _) hfrom, hp]
        rw [if_pos (by simpa using hfrom), List.filter_cons, if_neg (by simp [hq])]
      · rw [if_neg (by simpa using hfrom)]
    | true =>
      rw [if_pos (by simp [hp]), childrenOf_cons]
      by_cases hfrom : lk.fromId = x
      · have hq : Q lk.toId = true := by
          rw [← h lk (List.mem_cons_self _ _) hfrom, hp]
        rw [if_pos (by simpa using hfrom), if_pos (by simpa using hfrom),
          List.filter_cons, if_pos (by simp [hq]), hrest]
      · rw [if_neg (by simpa using hfrom), if_neg (by simpa using hfrom), hrest]

theorem childrenOf_dropDangling (s : AppState) (x : Nat)
    (hx : (nodesByIdGet s.nodes x).isSome) :
    childrenOf (dropDangling s).links x =
      (childrenOf s.links x).filter
        (fun c => (nodesByIdGet s.nodes c).isSome) := by
  apply childrenOf_filter_eq
  intro lk _ hf
  simp [hf, hx]

/-- Relation between a memo of the original state and a memo of the
dangling-free state: they agree on existing ids; dangling ids are absent on
the right and hold zero on the left. -/
def MemoRel (s : AppState) (m₁ m₂ : Memo) : Prop :=
  (∀ i, (nodesByIdGet s.nodes i).isSome → memoGet m₁ i = memoGet m₂ i) ∧
    ∀ i, ¬ (nodesByIdGet s.nodes i).isSome →
      memoGet m₂ i = none ∧ ∀ t, memoGet m₁ i = some t → t = ⟨0, 0⟩

/-- A call on a dangling id touches only the left memo, returns zero, and
keeps the relation. -/
theorem totalFor_dangling_side (s : AppState) :
    ∀ (fuel x : Nat) (trail : List Nat) (m₁ m₂ : Memo),
      MemoRel s m₁ m₂ → nodesByIdGet s.nodes x = none →
      (totalFor s fuel x trail m₁).1 = ⟨0, 0⟩ ∧
        MemoRel s (totalFor s fuel x trail m₁).2 m₂ := by
  intro fuel x trail m₁ m₂ hrel hx
  cases fuel with
  | zero => exact ⟨rfl, hrel⟩
  | succ fuel =>
    rw [totalFor_succ]
    rcases hm : memoGet m₁ x with _ | t
    · rw [hx]
      refine ⟨rfl, ?_, ?_⟩
      · intro i hi
        have hix : i ≠ x := by
          intro he
          rw [he, hx] at hi
          cases hi
        rw [memoGet_memoSet_ne _ _ _ _ hix]
        exact hrel.1 i hi
      · intro i hi
        refine ⟨(hrel.2 i hi).1, ?_⟩
        intro t ht
        by_cases hix : i = x
        · subst hix
          rw [memoGet_memoSet_self] at ht
          exact (Option.some_inj.mp ht).symm
        · rw [memoGet_memoSet_ne _ _ _ _ hix] at ht
          exact (hrel.2 i hi).2 t ht
    · have hzero : t = ⟨0, 0⟩ :=
        (hrel.2 x (by rw [hx]; intro h; cases h)).2 t hm
      exact ⟨hzero, hrel⟩

theorem dropDangling_nodes (s : AppState) : (dropDangling s).nodes = s.nodes := rfl

theorem memoRel_set_both {s : AppState} {m₁ m₂ : Memo} {x : Nat}
    (hrel : MemoRel s m₁ m₂) (hx : (nodesByIdGet s.nodes x).isSome)
    (v : Totals) : MemoRel s (memoSet m₁ x v) (memoSet m₂ x v) := by
  constructor
  · intro i hi
    by_cases hix : i = x
    · subst hix
      rw [memoGet_memoSet_self, memoGet_memoSet_self]
    · rw [memoGet_memoSet_ne _ _ _ _ hix, memoGet_memoSet_ne _ _ _ _ hix]
      exact hrel.1 i hi
  · intro i hi
    have hix : i ≠ x := by
      intro he
      exact hi (he ▸ hx)
    rw [memoGet_memoSet_ne _ _ _ _ hix, memoGet_memoSet_ne _ _ _ _ hix]
    exact hrel.2 i hi

/-- `totalFor` computes the same value on the original state and on the
dangling-free state, existing node by existing node, and keeps `MemoRel`. -/
theorem totalFor_dropDangling (s : AppState) :
    ∀ (fuel x : Nat) (trail : List Nat) (m₁ m₂ : Memo),
      MemoRel s m₁ m₂ → (nodesByIdGet s.nodes x).isSome →
      (totalFor s fuel x trail m₁).1 =
          (totalFor (dropDangling s) fuel x trail m₂).1 ∧
        MemoRel s (totalFor s fuel x trail m₁).2
          (totalFor (dropDangling s) fuel x trail m₂).2 := by
  intro fuel
  induction fuel with
  | zero => intro x trail m₁ m₂ hrel _; exact ⟨rfl, hrel⟩
  | succ a ih =>
    intro x trail m₁ m₂ hrel hx
    rw [totalFor_succ, totalFor_succ]
    have hmeq : memoGet m₂ x = memoGet m₁ x := (hrel.1 x hx).symm
    rcases hm : memoGet m₁ x with _ | t
    · rw [hmeq.trans hm]
      rw [dropDangling_nodes]
      rcases hget : nodesByIdGet s.nodes x with _ | node
      · rw [hget] at hx; cases hx
      · dsimp only
        by_cases hst : node.status = Status.shelved
        · rw [if_pos hst, if_pos hst]
          exact ⟨rfl, memoRel_set_both hrel hx _⟩
        · rw [if_neg hst, if_neg hst]
          by_cases htr : x ∈ trail
          · rw [if_pos htr, if_pos htr]
            exact ⟨rfl, hrel⟩
          · rw [if_neg htr, if_neg htr]
            dsimp only
            rw [childrenOf_dropDangling s x hx]
            have hfold : ∀ (cs : List Nat) (acc₁ acc₂ : Totals × Memo),
                acc₁.1 = acc₂.1 → MemoRel s acc₁.2 acc₂.2 →
                (cs.foldl (childStep s a (x :: trail)) acc₁).1 =
                    ((cs.filter (fun c => (nodesByIdGet s.nodes c).isSome)).foldl
                      (childStep (dropDangling s) a (x :: trail)) acc₂).1 ∧
                  MemoRel s (cs.foldl (childStep s a (x :: trail)) acc₁).2
                    ((cs.filter (fun c => (nodesByIdGet s.nodes c).isSome)).foldl
                      (childStep (dropDangling s) a (x :: trail)) acc₂).2 := by
              intro cs
              induction cs with
              | nil => intro acc₁ acc₂ h1 h2; exact ⟨h1, h2⟩
              | cons c rest ihc =>
                intro acc₁ acc₂ h1 h2
                rw [List.filter_cons]
                cases hc : (nodesByIdGet s.nodes c).isSome with
                | true =>
                  rw [if_pos (by simp [hc])]
                  simp only [List.foldl_cons]
                  have hcc := ih c (x :: trail) acc₁.2 acc₂.2 h2 hc
                  apply ihc
                  · simp only [childStep, h1, hcc.1]
                  · exact hcc.2
                | false =>
                  rw [if_neg (by simp [hc])]
                  simp only [List.foldl_cons]
                  have hd := totalFor_dangling_side s a c (x :: trail) acc₁.2
                    acc₂.2 h2 (by
                      cases hg : nodesByIdGet s.nodes c with
                      | none => rfl
                      | some nd => rw [hg] at hc; cases hc)
                  apply ihc
                  · simp only [childStep, hd.1, h1, add_zero]
                  · exact hd.2
            rcases hfold (childrenOf s.links x)
              (⟨node.estimatedCost, node.estimatedTime⟩, m₁)
              (⟨node.estimatedCost, node.estimatedTime⟩, m₂) rfl hrel with ⟨hv, hmr⟩
            refine ⟨hv, ?_⟩
            rw [hv]
            exact memoRel_set_both hmr hx _
    · rw [hmeq.trans hm]
      exact ⟨rfl, hrel⟩

/-- Claim C10, amended (what does hold): the rollup totals are insensitive to
dangling links — `computeTotals` on any state equals `computeTotals` on the
state with every link touching a missing id removed — and `totalsById` never
creates an entry for an id outside the node set.  (Sizing and layout are NOT
insensitive: see `dangling_link_counterexample`.) -/
theorem dangling_links_amended :
    (∀ s : AppState, computeTotals s = computeTotals (dropDangling s)) ∧
      ∀ (s : AppState) (i : Nat) (t : Totals),
        totalsGet (computeTotals s) i = some t → i ∈ s.nodes.map (·.id) := by
  constructor
  · intro s
    unfold computeTotals computeTotalsPass
    rw [dropDangling_nodes]
    have key : ∀ (nodes' : List Node) (acc₁ acc₂ : List (Nat × Totals) × Memo),
        (∀ n ∈ nodes', n ∈ s.nodes) →
        acc₁.1 = acc₂.1 → MemoRel s acc₁.2 acc₂.2 →
        (nodes'.foldl (fun acc node =>
            let r := totalFor s (s.nodes.length + 1) node.id [] acc.2
            ((node.id, r.1) :: acc.1, r.2)) acc₁).1 =
          (nodes'.foldl (fun acc node =>
            let r := totalFor (dropDangling s) (s.nodes.length + 1) node.id [] acc.2
            ((node.id, r.1) :: acc.1, r.2)) acc₂).1 := by
      intro nodes'
      induction nodes' with
      | nil => intro acc₁ acc₂ _ h1 _; exact h1
      | cons node rest ihn =>
        intro acc₁ acc₂ hsub h1 h2
        simp only [List.foldl_cons]
        have hx : (nodesByIdGet s.nodes node.id).isSome :=
          nodesByIdGet_isSome_of_mem (hsub node (List.mem_cons_self _ _))
        have hcc := totalFor_dropDangling s (s.nodes.length + 1) node.id []
          acc₁.2 acc₂.2 h2 hx
        refine ihn _ _ (fun n hn => hsub n (List.mem_cons_of_mem _ hn)) ?_ hcc.2
        rw [h1, hcc.1]
    exact key s.nodes ([], []) ([], []) (fun _ h => h) rfl
      ⟨fun _ _ => rfl, fun _ _ => ⟨rfl, fun t ht => by cases ht⟩⟩
  · intro s i t ht
    rw [totalsGet_eq_memoGet] at ht
    have key : ∀ (nodes' : List Node) (acc : List (Nat × Totals) × Memo),
        (∀ n ∈ nodes', n.id ∈ s.nodes.map (·.id)) →
        (∀ j u, memoGet acc.1 j = some u → j ∈ s.nodes.map (·.id)) →
        ∀ j u, memoGet ((nodes'.foldl (fun acc node =>
            let r := totalFor s (s.nodes.length + 1) node.id [] acc.2
            ((node.id, r.1) :: acc.1, r.2)) acc)).1 j = some u →
          j ∈ s.nodes.map (·.id) := by
      intro nodes'
      induction nodes' with
      | nil => intro acc _ hacc; exact hacc
      | cons node rest ihn =>
        intro acc hsub hacc
        simp only [List.foldl_cons]
        refine ihn _ (fun n hn => hsub n (List.mem_cons_of_mem _ hn)) ?_
        intro j u hju
        by_cases hjx : j = node.id
        · exact hjx ▸ hsub node (List.mem_cons_self _ _)
        · rw [show ((node.id, (totalFor s (s.nodes.length + 1) node.id [] acc.2).1) :: acc.1)
                = memoSet acc.1 node.id
                    (totalFor s (s.nodes.length + 1) node.id [] acc.2).1 from rfl,
              memoGet_memoSet_ne _ _ _ _ hjx] at hju
          exact hacc j u hju
    exact key s.nodes ([], []) (fun n hn => List.mem_map_of_mem (·.id) hn)
      (fun _ _ h => by cases h) i t ht

/-- Witness for `dangling_links_amended` at the dangling-link state. -/
theorem dangling_links_amended_witness :
    computeTotals danglingState = computeTotals (dropDangling danglingState) ∧
      1 ∈ danglingState.nodes.map (·.id) :=
  ⟨dangling_links_amended.1 danglingState,
   dangling_links_amended.2 danglingState 1 ⟨150, 0⟩ (by
     norm_num [computeTotals, computeTotalsPass, totalFor, memoGet, memoSet,
       totalsGet, nodesByIdGet, childrenOf, danglingState, mkNode])⟩

/-! ### Radial layout engine (claims C6 and C7)

Embedding of `computeLayout` (src/app.js lines 208-315).  `Math.cos` and
`Math.sin` are modelled by abstract functions `cosA sinA : ℚ → ℚ` whose
argument is the angle as a multiple of π (every angle in the source is a
rational multiple of π); none of the layout claims depends on trigonometric
values.  The viewport centre is `(cX, cY)`; the `layoutCache.positions` map
is the `cache` argument, and the returned map is the new cache.  The function
is split into its four source stages (purge+seed, root placement, extra-root
placement, breadth-first descent) as separate definitions. -/

/-- The `positions` map, as a functional map. -/
abbrev PosMap := Nat → Option Pos

/-- `positions.set(i, v)`. -/
def posSet (mp : PosMap) (i : Nat) (v : Pos) : PosMap :=
  fun j => if j = i then some v else mp j

/-- `nodesById.get(i)?.positionLocked` (missing node → falsy). -/
def lockedOf (s : AppState) (i : Nat) : Bool :=
  match nodesByIdGet s.nodes i with
  | some nd => nd.positionLocked
  | none => false

/-- The deterministic first-render fallback of src/app.js lines 230-238:
angle `(index / nodeCount) * 2π` (here `2*index/nodeCount` as a multiple of
π) and radius `180 + (index % 5) * 20` around the viewport centre. -/
def seedPos (cosA sinA : ℚ → ℚ) (cX cY : ℚ) (nodeCount index : Nat) : Pos :=
  ⟨cX + cosA ((2 * (index : ℚ)) / (nodeCount : ℚ)) * (180 + ((index % 5 : Nat) : ℚ) * 20),
   cY + sinA ((2 * (index : ℚ)) / (nodeCount : ℚ)) * (180 + ((index % 5 : Nat) : ℚ) * 20)⟩

/-- The cache purge of src/app.js lines 216-221: entries for deleted nodes
are dropped. -/
def purgeStage (s : AppState) (cache : PosMap) : PosMap :=
  fun i => if i ∈ s.nodes.map (·.id) then cache i else none

/-- One iteration of the seed loop (src/app.js lines 223-239): a locked node
with a stored position is pinned to it; otherwise a node without a cached
position receives the deterministic fallback. -/
def seedStep (cosA sinA : ℚ → ℚ) (cX cY : ℚ) (nodeCount : Nat)
    (pos : PosMap) (p : Nat × Node) : PosMap :=
  if p.2.positionLocked && p.2.position.isSome then
    posSet pos p.2.id (p.2.position.getD ⟨0, 0⟩)
  else
    match pos p.2.id with
    | some _ => pos
    | none => posSet pos p.2.id (seedPos cosA sinA cX cY nodeCount p.1)

/-- The seed loop over `state.nodes` with indices. -/
def seedStage (cosA sinA : ℚ → ℚ) (cX cY : ℚ) (s : AppState)
    (pos : PosMap) : PosMap :=
  (s.nodes.enum).foldl (seedStep cosA sinA cX cY (max s.nodes.length 1)) pos

/-- Root placement (src/app.js lines 241-247): the canonical root is centred
unless locked. -/
def rootStage (cX cY : ℚ) (s : AppState) (pos : PosMap) : PosMap :=
  match getRootId s with
  | some r =>
    match nodesByIdGet s.nodes r with
    | some rootNode =>
      if rootNode.positionLocked then pos else posSet pos r ⟨cX, cY⟩
    | none => pos
  | none => pos

/-- The extra-roots list of `computeLayout` and `render`. -/
def extraRootsOf (s : AppState) : List Node :=
  (s.nodes.filter (fun nd => (incomingOf s.links nd.id).isEmpty)).filter
    (fun nd => !(some nd.id == getRootId s))

/-- One extra-root placement: on a circle of radius `2.2 * rootRadius`
around the root position, evenly spaced from "up"; locked extras skipped. -/
def extraStep (cosA sinA : ℚ → ℚ) (rootPosition : Pos) (extraRadius : ℚ)
    (len : Nat) (pos : PosMap) (p : Nat × Node) : PosMap :=
  if p.2.positionLocked then pos
  else
    posSet pos p.2.id
      ⟨rootPosition.x + cosA (-(1 / 2) + (2 * (p.1 : ℚ)) / (len : ℚ)) * extraRadius,
       rootPosition.y + sinA (-(1 / 2) + (2 * (p.1 : ℚ)) / (len : ℚ)) * extraRadius⟩

/-- Extra-root placement (src/app.js lines 249-268). -/
def extraStage (cosA sinA : ℚ → ℚ) (cX cY : ℚ) (s : AppState)
    (sizes : SizeMap) (pos : PosMap) : PosMap :=
  match getRootId s with
  | some r =>
    if (extraRootsOf s).isEmpty then pos
    else
      let rootPosition := (pos r).getD ⟨cX, cY⟩
      let extraRadius := radiusOr sizes r ROOT_NODE_RADIUS * (11 / 5)
      ((extraRootsOf s).enum).foldl
        (extraStep cosA sinA rootPosition extraRadius (extraRootsOf s).length)
        pos
  | none => pos

/-- The placement of one parent's unlocked children (src/app.js lines
289-304): evenly on a circle of radius `parentRadius + max(childRadii) + 90`
around the parent's current position, starting at "up". -/
def childPlaceStep (cosA sinA : ℚ → ℚ) (parentPos : Pos) (distance : ℚ)
    (len : Nat) (pos : PosMap) (q : Nat × Nat) : PosMap :=
  posSet pos q.2
    ⟨parentPos.x + cosA (-(1 / 2) + (2 * (q.1 : ℚ)) / (len : ℚ)) * distance,
     parentPos.y + sinA (-(1 / 2) + (2 * (q.1 : ℚ)) / (len : ℚ)) * distance⟩

/-- The unlocked children of one parent's `childrenMap` bucket (a dangling
child id has no node, hence counts as unlocked and is included). -/
def autoChildrenOf (s : AppState) (parentId : Nat) : List Nat :=
  (childrenOf s.links parentId).filter (fun c => !(lockedOf s c))

/-- The placement of one parent's unlocked children (src/app.js lines
286-304): skipped when there are none; otherwise each is written on the
circle around the parent position. -/
def childPlace (cosA sinA : ℚ → ℚ) (s : AppState) (sizes : SizeMap)
    (parentId : Nat) (parentPos : Pos) (pos : PosMap) : PosMap :=
  if (autoChildrenOf s parentId).isEmpty then pos
  else
    let parentRadius := radiusOr sizes parentId ROOT_NODE_RADIUS
    let childRadii := (autoChildrenOf s parentId).map
      (fun c => radiusOr sizes c (parentRadius / 2))
    let maxChildRadius := max (listMax childRadii) 0
    let distance := parentRadius + maxChildRadius + 90
    ((autoChildrenOf s parentId).enum).foldl
      (childPlaceStep cosA sinA parentPos distance (autoChildrenOf s parentId).length)
      pos

/-- The breadth-first descent of `computeLayout` (src/app.js lines 270-312).
A dequeued parent with no cached position is skipped entirely (`continue`),
its children not enqueued.  Fueled; both layout claims hold uniformly in the
fuel, and `computeLayout` passes a fuel exceeding the maximal number of
iterations. -/
def layoutBFS (cosA sinA : ℚ → ℚ) (s : AppState) (sizes : SizeMap) :
    Nat → List Nat → List Nat → PosMap → PosMap
  | 0, _, _, pos => pos
  | _ + 1, [], _, pos => pos
  | fuel + 1, parentId :: rest, seen, pos =>
    match pos parentId with
    | none => layoutBFS cosA sinA s sizes fuel rest seen pos
    | some parentPos =>
      let pos' := childPlace cosA sinA s sizes parentId parentPos pos
      let qs := (childrenOf s.links parentId).foldl
        (fun (qs : List Nat × List Nat) c =>
          if c ∈ qs.2 then qs else (qs.1 ++ [c], c :: qs.2))
        (rest, seen)
      layoutBFS cosA sinA s sizes fuel qs.1 qs.2 pos'

/-- `computeLayout(nodeSizes)` (src/app.js lines 208-315).  When `rootId` is
null the node list is empty, so the JS branch that seeds the queue from all
roots enqueues nothing; the BFS is skipped accordingly. -/
def preStage (cosA sinA : ℚ → ℚ) (cX cY : ℚ) (s : AppState)
    (sizes : SizeMap) (cache : PosMap) : PosMap :=
  extraStage cosA sinA cX cY s sizes
    (rootStage cX cY s
      (seedStage cosA sinA cX cY s
        (purgeStage s cache)))

def computeLayout (cosA sinA : ℚ → ℚ) (cX cY : ℚ) (s : AppState)
    (sizes : SizeMap) (cache : PosMap) : PosMap :=
  match getRootId s with
  | some r =>
    layoutBFS cosA sinA s sizes (s.nodes.length + s.links.length + 2) [r] [r]
      (preStage cosA sinA cX cY s sizes cache)
  | none => preStage cosA sinA cX cY s sizes cache

/-! ### Locked nodes are never repositioned (claim C7) -/

theorem foldl_posmap_preserve {α : Type} (step : PosMap → α → PosMap) (i : Nat) :
    ∀ (ps : List α) (pos : PosMap),
      (∀ q ∈ ps, ∀ p : PosMap, step p q i = p i) →
      (ps.foldl step pos) i = pos i := by
  intro ps
  induction ps with
  | nil => intro pos _; rfl
  | cons q rest ih =>
    intro pos h
    simp only [List.foldl_cons]
    rw [ih _ (fun q' hq' => h q' (List.mem_cons_of_mem _ hq')),
      h q (List.mem_cons_self _ _)]

theorem node_eq_of_id_eq {nodes : List Node}
    (hnd : (nodes.map (·.id)).Nodup) {a b : Node} (ha : a ∈ nodes)
    (hb : b ∈ nodes) (hid : a.id = b.id) : a = b := by
  have h1 := nodesByIdGet_of_nodup nodes a hnd ha
  have h2 := nodesByIdGet_of_nodup nodes b hnd hb
  rw [hid, h2] at h1
  exact (Option.some_inj.mp h1).symm

theorem mem_of_mem_enum {α : Type} {l : List α} {q : Nat × α}
    (h : q ∈ l.enum) : q.2 ∈ l := by
  rcases q with ⟨k, a⟩
  exact List.getElem?_mem (List.mk_mem_enum_iff_getElem?.mp h)

theorem seedStep_ne (cosA sinA : ℚ → ℚ) (cX cY : ℚ) (nodeCount : Nat)
    (pos : PosMap) (q : Nat × Node) (i : Nat) (h : q.2.id ≠ i) :
    seedStep cosA sinA cX cY nodeCount pos q i = pos i := by
  rw [seedStep]
  split
  · simp [posSet, Ne.symm h]
  · rcases hc : pos q.2.id with _ | v
    · dsimp only
      simp [posSet, Ne.symm h]
    · rfl

theorem seedFold_pinned_aux (cosA sinA : ℚ → ℚ) (cX cY : ℚ) (nodeCount : Nat)
    (n : Node) (p : Pos) (hl : n.positionLocked = true)
    (hp : n.position = some p) :
    ∀ (ps : List (Nat × Node)) (pos : PosMap),
      (∀ q ∈ ps, q.2.id = n.id → q.2 = n) →
      ((∃ q ∈ ps, q.2 = n) ∨ pos n.id = some p) →
      (ps.foldl (seedStep cosA sinA cX cY nodeCount) pos) n.id = some p := by
  intro ps
  induction ps with
  | nil =>
    intro pos _ hd
    rcases hd with ⟨_, h, _⟩ | h
    · cases h
    · exact h
  | cons q rest ih =>
    intro pos hsub hd
    simp only [List.foldl_cons]
    by_cases hq : q.2 = n
    · refine ih _ (fun q' hq' => hsub q' (List.mem_cons_of_mem _ hq')) (Or.inr ?_)
      rw [seedStep, hq]
      rw [if_pos (by simp [hl, hp])]
      simp [posSet, hp]
    · have hqid : q.2.id ≠ n.id := by
        intro he
        exact hq (hsub q (List.mem_cons_self _ _) he)
      refine ih _ (fun q' hq' => hsub q' (List.mem_cons_of_mem _ hq')) ?_
      rcases hd with ⟨q', hq', hq'n⟩ | hcache
      · rcases List.mem_cons.mp hq' with rfl | hq'r
        · exact absurd hq'n hq
        · exact Or.inl ⟨q', hq'r, hq'n⟩
      · exact Or.inr ((seedStep_ne _ _ _ _ _ _ _ _ hqid).trans hcache)

theorem seedStage_pinned (cosA sinA : ℚ → ℚ) (cX cY : ℚ) (s : AppState)
    (pos : PosMap) (n : Node) (p : Pos) (hnd : (s.nodes.map (·.id)).Nodup)
    (hm : n ∈ s.nodes) (hl : n.positionLocked = true)
    (hp : n.position = some p) :
    seedStage cosA sinA cX cY s pos n.id = some p := by
  apply seedFold_pinned_aux cosA sinA cX cY _ n p hl hp
  · intro q hq hid
    exact node_eq_of_id_eq hnd (mem_of_mem_enum hq) hm hid
  · left
    rcases List.getElem?_of_mem hm with ⟨k, hk⟩
    exact ⟨(k, n), List.mk_mem_enum_iff_getElem?.mpr hk, rfl⟩

theorem rootStage_locked (cX cY : ℚ) (s : AppState) (pos : PosMap) (i : Nat)
    (hl : lockedOf s i = true) : rootStage cX cY s pos i = pos i := by
  rw [rootStage]
  rcases hr : getRootId s with _ | r
  · rfl
  · dsimp only
    rcases hg : nodesByIdGet s.nodes r with _ | rootNode
    · rfl
    · dsimp only
      by_cases hrl : rootNode.positionLocked
      · rw [if_pos hrl]
      · rw [if_neg hrl]
        have hri : r ≠ i := by
          intro he
          subst he
          rw [lockedOf, hg] at hl
          exact hrl hl
        simp [posSet, Ne.symm hri]

theorem extraStage_locked (cosA sinA : ℚ → ℚ) (cX cY : ℚ) (s : AppState)
    (sizes : SizeMap) (pos : PosMap) (i : Nat)
    (hnd : (s.nodes.map (·.id)).Nodup) (hl : lockedOf s i = true) :
    extraStage cosA sinA cX cY s sizes pos i = pos i := by
  rw [extraStage]
  rcases hr : getRootId s with _ | r
  · rfl
  · dsimp only
    by_cases hemp : (extraRootsOf s).isEmpty
    · rw [if_pos hemp]
    · rw [if_neg hemp]
      apply foldl_posmap_preserve
      intro q hq pz
      rw [extraStep]
      by_cases hql : q.2.positionLocked
      · rw [if_pos hql]
      · rw [if_neg hql]
        have hqm : q.2 ∈ s.nodes :=
          List.mem_of_mem_filter (List.mem_of_mem_filter (mem_of_mem_enum hq))
        have hqi : q.2.id ≠ i := by
          intro he
          have hgq := nodesByIdGet_of_nodup s.nodes q.2 hnd hqm
          rw [he] at hgq
          rw [lockedOf, hgq] at hl
          exact hql hl
        simp [posSet, Ne.symm hqi]

theorem childPlaceStep_ne (cosA sinA : ℚ → ℚ) (parentPos : Pos)
    (distance : ℚ) (len : Nat) (q : Nat × Nat) (i : Nat) (h : q.2 ≠ i) :
    ∀ p : PosMap, childPlaceStep cosA sinA parentPos distance len p q i = p i := by
  intro p
  rw [childPlaceStep]
  simp [posSet, Ne.symm h]

theorem childPlace_preserve (cosA sinA : ℚ → ℚ) (s : AppState)
    (sizes : SizeMap) (parentId : Nat) (parentPos : Pos) (pos : PosMap)
    (i : Nat) (h : i ∉ autoChildrenOf s parentId) :
    childPlace cosA sinA s sizes parentId parentPos pos i = pos i := by
  rw [childPlace]
  split
  · rfl
  · apply foldl_posmap_preserve
    intro q hq p
    apply childPlaceStep_ne
    intro he
    exact h (he ▸ mem_of_mem_enum hq)

theorem layoutBFS_locked (cosA sinA : ℚ → ℚ) (s : AppState) (sizes : SizeMap)
    (i : Nat) (hl : lockedOf s i = true) :
    ∀ (fuel : Nat) (queue seen : List Nat) (pos : PosMap),
      layoutBFS cosA sinA s sizes fuel queue seen pos i = pos i := by
  intro fuel
  induction fuel with
  | zero => intro queue seen pos; rfl
  | succ fuel ih =>
    intro queue seen pos
    cases queue with
    | nil => rfl
    | cons parentId rest =>
      rw [layoutBFS]
      rcases hpp : pos parentId with _ | parentPos
      · exact ih _ _ _
      · dsimp only
        rw [ih]
        apply childPlace_preserve
        intro hmem
        have := List.of_mem_filter hmem
        rw [hl] at this
        cases this

/-- Claim C7: a node with `positionLocked = true` is never repositioned by
`computeLayout`: the returned position map holds exactly the value pinned in
`Node.position`, whatever the other nodes, links, sizes and cached positions
are (so also after unrelated nodes or links are added or removed). -/
theorem locked_exclusion :
    ∀ (cosA sinA : ℚ → ℚ) (cX cY : ℚ) (s : AppState) (sizes : SizeMap)
      (cache : PosMap) (n : Node) (p : Pos),
      (s.nodes.map (·.id)).Nodup → n ∈ s.nodes →
      n.positionLocked = true → n.position = some p →
      computeLayout cosA sinA cX cY s sizes cache n.id = some p := by
  intro cosA sinA cX cY s sizes cache n p hnd hm hl hp
  have hgetn := nodesByIdGet_of_nodup s.nodes n hnd hm
  have hlof : lockedOf s n.id = true := by
    rw [lockedOf, hgetn]
    exact hl
  have hpre : preStage cosA sinA cX cY s sizes cache n.id = some p := by
    rw [preStage,
      extraStage_locked cosA sinA cX cY s sizes _ n.id hnd hlof,
      rootStage_locked cX cY s _ n.id hlof,
      seedStage_pinned cosA sinA cX cY s _ n p hnd hm hl hp]
  rw [computeLayout]
  rcases hr : getRootId s with _ | r
  · exact hpre
  · dsimp only
    rw [layoutBFS_locked cosA sinA s sizes n.id hlof]
    exact hpre

/-- A three-node state whose node 7 is locked at (5, 6). -/
def lockedState : AppState :=
  ⟨[mkNode 1 0 0 .considering,
    ⟨7, 0, 0, .considering, true, some ⟨5, 6⟩⟩,
    mkNode 3 0 0 .considering],
   [⟨1, 7⟩, ⟨1, 3⟩]⟩

/-- Witness for `locked_exclusion` on `lockedState`. -/
theorem locked_exclusion_witness :
    computeLayout (fun q => q) (fun q => q + 1) 100 50 lockedState
      (fun _ => none) (fun _ => none) 7 = some ⟨5, 6⟩ :=
  locked_exclusion (fun q => q) (fun q => q + 1) 100 50 lockedState
    (fun _ => none) (fun _ => none)
    ⟨7, 0, 0, .considering, true, some ⟨5, 6⟩⟩ ⟨5, 6⟩
    (by norm_num [lockedState, mkNode])
    (by norm_num [lockedState, mkNode])
    rfl
    rfl

/-! ### Layout determinism / idempotence (claim C6) -/

theorem getRootId_mem {s : AppState} {r : Nat} (h : getRootId s = some r) :
    r ∈ s.nodes.map (·.id) := by
  rw [getRootId] at h
  rcases hf : (s.nodes.filter (fun nd => (incomingOf s.links nd.id).isEmpty)).head?
      with _ | nd
  · rw [hf] at h
    rcases hh : s.nodes.head? with _ | nd'
    · rw [hh] at h; cases h
    · rw [hh] at h
      have he : nd'.id = r := by simpa using h
      have hm : nd'.id ∈ s.nodes.map (·.id) :=
        List.mem_map_of_mem (fun x : Node => x.id)
          (List.mem_of_mem_head? (by rw [hh]; rfl))
      exact he ▸ hm
  · rw [hf] at h
    have he : nd.id = r := by simpa using h
    have hm : nd.id ∈ s.nodes.map (·.id) :=
      List.mem_map_of_mem (fun x : Node => x.id)
        (List.mem_of_mem_filter (List.mem_of_mem_head? (by rw [hf]; rfl)))
    exact he ▸ hm

theorem getRootId_none {s : AppState} (h : getRootId s = none) :
    s.nodes = [] := by
  rw [getRootId] at h
  rcases hf : (s.nodes.filter (fun nd => (incomingOf s.links nd.id).isEmpty)).head?
      with _ | nd
  · rw [hf] at h
    rcases hh : s.nodes.head? with _ | nd'
    · exact List.head?_eq_none_iff.mp hh
    · rw [hh] at h; cases h
  · rw [hf] at h; cases h

theorem seedStage_not_node (cosA sinA : ℚ → ℚ) (cX cY : ℚ) (s : AppState)
    (pos : PosMap) (i : Nat) (hi : i ∉ s.nodes.map (·.id)) :
    seedStage cosA sinA cX cY s pos i = pos i := by
  apply foldl_posmap_preserve
  intro q hq p
  apply seedStep_ne
  intro he
  exact hi (he ▸ List.mem_map_of_mem (·.id) (mem_of_mem_enum hq))

theorem seedStep_isSome_mono (cosA sinA : ℚ → ℚ) (cX cY : ℚ) (nodeCount : Nat)
    (pos : PosMap) (q : Nat × Node) (i : Nat) (h : (pos i).isSome) :
    ((seedStep cosA sinA cX cY nodeCount pos q) i).isSome := by
  rw [seedStep]
  split
  · by_cases hqi : i = q.2.id
    · subst hqi; simp [posSet]
    · simpa [posSet, hqi] using h
  · rcases hc : pos q.2.id with _ | v
    · dsimp only
      by_cases hqi : i = q.2.id
      · subst hqi; simp [posSet]
      · simpa [posSet, hqi] using h
    · exact h

theorem seedStage_isSome (cosA sinA : ℚ → ℚ) (cX cY : ℚ) (s : AppState)
    (pos : PosMap) (n : Node) (hm : n ∈ s.nodes) :
    ((seedStage cosA sinA cX cY s pos) n.id).isSome := by
  have key : ∀ (ps : List (Nat × Node)) (pz : PosMap),
      ((∃ q ∈ ps, q.2.id = n.id) ∨ (pz n.id).isSome) →
      ((ps.foldl (seedStep cosA sinA cX cY (max s.nodes.length 1)) pz) n.id).isSome := by
    intro ps
    induction ps with
    | nil =>
      intro pz h
      rcases h with ⟨_, h, _⟩ | h
      · cases h
      · exact h
    | cons q rest ih =>
      intro pz h
      simp only [List.foldl_cons]
      apply ih
      by_cases hqi : q.2.id = n.id
      · right
        rw [← hqi]
        rw [seedStep]
        split
        · simp [posSet]
        · rcases hc : pz q.2.id with _ | v
          · dsimp only; simp [posSet]
          · simpa using hc ▸ rfl
      · rcases h with ⟨q', hq', hq'i⟩ | hsome
        · rcases List.mem_cons.mp hq' with rfl | hq'r
          · exact absurd hq'i hqi
          · exact Or.inl ⟨q', hq'r, hq'i⟩
        · exact Or.inr (seedStep_isSome_mono _ _ _ _ _ _ _ _ hsome)
  apply key
  left
  rcases List.getElem?_of_mem hm with ⟨k, hk⟩
  exact ⟨(k, n), List.mk_mem_enum_iff_getElem?.mpr hk, rfl⟩

theorem seedStage_keep (cosA sinA : ℚ → ℚ) (cX cY : ℚ) (s : AppState)
    (pos : PosMap) (n : Node) (v : Pos) (hnd : (s.nodes.map (·.id)).Nodup)
    (hm : n ∈ s.nodes)
    (hnp : (n.positionLocked && n.position.isSome) = false)
    (hv : pos n.id = some v) :
    seedStage cosA sinA cX cY s pos n.id = some v := by
  have key : ∀ (ps : List (Nat × Node)) (pz : PosMap),
      (∀ q ∈ ps, q.2.id = n.id → q.2 = n) → pz n.id = some v →
      ((ps.foldl (seedStep cosA sinA cX cY (max s.nodes.length 1)) pz) n.id) = some v := by
    intro ps
    induction ps with
    | nil => intro pz _ h; exact h
    | cons q rest ih =>
      intro pz hsub h
      simp only [List.foldl_cons]
      apply ih _ (fun q' hq' => hsub q' (List.mem_cons_of_mem _ hq'))
      by_cases hqi : q.2.id = n.id
      · have hqn : q.2 = n := hsub q (List.mem_cons_self _ _) hqi
        rw [seedStep, hqn, if_neg (by simp [hnp]), h]
        exact h
      · rw [seedStep_ne _ _ _ _ _ _ _ _ hqi]
        exact h
  apply key
  · intro q hq hid
    exact node_eq_of_id_eq hnd (mem_of_mem_enum hq) hm hid
  · exact hv

/-- Running the same fold over two position maps gives equal results at `i`
when either the maps already agree at `i` or some entry unconditionally
writes `i`; every entry must either preserve `i` or write it with a value
independent of the accumulated map. -/
theorem foldl_write_cases {α : Type} (step : PosMap → α → PosMap) (i : Nat) :
    ∀ (ps : List α) (pos₁ pos₂ : PosMap),
      (∀ q ∈ ps, (∀ p : PosMap, step p q i = p i) ∨
        ∃ v, ∀ p : PosMap, step p q i = some v) →
      (pos₁ i = pos₂ i ∨ ∃ q ∈ ps, ∃ v, ∀ p : PosMap, step p q i = some v) →
      (ps.foldl step pos₁) i = (ps.foldl step pos₂) i := by
  intro ps
  induction ps with
  | nil =>
    intro pos₁ pos₂ _ hd
    rcases hd with h | ⟨_, h, _⟩
    · exact h
    · cases h
  | cons q rest ih =>
    intro pos₁ pos₂ hcases hd
    simp only [List.foldl_cons]
    have hrest := fun q' hq' => hcases q' (List.mem_cons_of_mem _ hq')
    rcases hd with hagree | ⟨q', hq', v, hv⟩
    · rcases hcases q (List.mem_cons_self _ _) with hpres | ⟨v, hv⟩
      · exact ih _ _ hrest (Or.inl ((hpres pos₁).trans (hagree.trans (hpres pos₂).symm)))
      · exact ih _ _ hrest (Or.inl ((hv pos₁).trans (hv pos₂).symm))
    · rcases List.mem_cons.mp hq' with rfl | hq'r
      · exact ih _ _ hrest (Or.inl ((hv pos₁).trans (hv pos₂).symm))
      · exact ih _ _ hrest (Or.inr ⟨q', hq'r, v, hv⟩)

theorem extraStep_cases (cosA sinA : ℚ → ℚ) (rootPosition : Pos)
    (extraRadius : ℚ) (len : Nat) (q : Nat × Node) (i : Nat) :
    (∀ p : PosMap, extraStep cosA sinA rootPosition extraRadius len p q i = p i) ∨
      ∃ v, ∀ p : PosMap,
        extraStep cosA sinA rootPosition extraRadius len p q i = some v := by
  by_cases hl : q.2.positionLocked
  · left
    intro p
    rw [extraStep, if_pos hl]
  · by_cases hqi : q.2.id = i
    · right
      refine ⟨⟨rootPosition.x + cosA (-(1 / 2) + (2 * (q.1 : ℚ)) / (len : ℚ)) * extraRadius,
              rootPosition.y + sinA (-(1 / 2) + (2 * (q.1 : ℚ)) / (len : ℚ)) * extraRadius⟩,
        fun p => ?_⟩
      rw [extraStep, if_neg hl]
      simp [posSet, hqi]
    · left
      intro p
      rw [extraStep, if_neg hl]
      simp [posSet, Ne.symm hqi]

theorem childPlaceStep_cases (cosA sinA : ℚ → ℚ) (parentPos : Pos)
    (distance : ℚ) (len : Nat) (q : Nat × Nat) (i : Nat) :
    (∀ p : PosMap, childPlaceStep cosA sinA parentPos distance len p q i = p i) ∨
      ∃ v, ∀ p : PosMap,
        childPlaceStep cosA sinA parentPos distance len p q i = some v := by
  by_cases hqi : q.2 = i
  · right
    refine ⟨⟨parentPos.x + cosA (-(1 / 2) + (2 * (q.1 : ℚ)) / (len : ℚ)) * distance,
            parentPos.y + sinA (-(1 / 2) + (2 * (q.1 : ℚ)) / (len : ℚ)) * distance⟩,
      fun p => ?_⟩
    rw [childPlaceStep]
    simp [posSet, hqi]
  · left
    intro p
    rw [childPlaceStep]
    simp [posSet, Ne.symm hqi]

/-- Ids on the queue produced by the seen-guarded enqueue fold come from the
previous queue or from the children list. -/
theorem enqueue_fold_mem :
    ∀ (cs : List Nat) (q sn : List Nat) (x : Nat),
      x ∈ (cs.foldl
        (fun (qs : List Nat × List Nat) c =>
          if c ∈ qs.2 then qs else (qs.1 ++ [c], c :: qs.2)) (q, sn)).1 →
      x ∈ q ∨ x ∈ cs := by
  intro cs
  induction cs with
  | nil => intro q sn x h; exact Or.inl h
  | cons c rest ih =>
    intro q sn x h
    simp only [List.foldl_cons] at h
    by_cases hc : c ∈ sn
    · rw [if_pos hc] at h
      rcases ih q sn x h with h' | h'
      · exact Or.inl h'
      · exact Or.inr (List.mem_cons_of_mem _ h')
    · rw [if_neg hc] at h
      rcases ih (q ++ [c]) (c :: sn) x h with h' | h'
      · rcases List.mem_append.mp h' with h'' | h''
        · exact Or.inl h''
        · exact Or.inr (List.mem_cons.mpr (Or.inl (List.mem_singleton.mp h'')))
      · exact Or.inr (List.mem_cons_of_mem _ h')

/-- If every extra root with id `i` is locked, the extra stage leaves `i`
untouched. -/
theorem extraStage_preserve (cosA sinA : ℚ → ℚ) (cX cY : ℚ) (s : AppState)
    (sizes : SizeMap) (pos : PosMap) (i : Nat)
    (h : ∀ e ∈ extraRootsOf s, e.positionLocked = true ∨ e.id ≠ i) :
    extraStage cosA sinA cX cY s sizes pos i = pos i := by
  rw [extraStage]
  rcases hr : getRootId s with _ | r
  · rfl
  · dsimp only
    by_cases hemp : (extraRootsOf s).isEmpty
    · rw [if_pos hemp]
    · rw [if_neg hemp]
      apply foldl_posmap_preserve
      intro q hq p
      rcases h q.2 (mem_of_mem_enum hq) with hql | hqi
      · rw [extraStep, if_pos hql]
      · rw [extraStep]
        by_cases hql : q.2.positionLocked
        · rw [if_pos hql]
        · rw [if_neg hql]
          simp [posSet, Ne.symm hqi]

theorem foldl_posmap_isSome {α : Type} (step : PosMap → α → PosMap) (i : Nat)
    (hstep : ∀ (p : PosMap) (q : α), (p i).isSome → ((step p q) i).isSome) :
    ∀ (ps : List α) (pos : PosMap), (pos i).isSome →
      ((ps.foldl step pos) i).isSome := by
  intro ps
  induction ps with
  | nil => intro pos h; exact h
  | cons q rest ih =>
    intro pos h
    simp only [List.foldl_cons]
    exact ih _ (hstep pos q h)

theorem rootStage_isSome_mono (cX cY : ℚ) (s : AppState) (pos : PosMap)
    (i : Nat) (h : (pos i).isSome) : ((rootStage cX cY s pos) i).isSome := by
  rw [rootStage]
  rcases getRootId s with _ | r
  · exact h
  · dsimp only
    rcases nodesByIdGet s.nodes r with _ | rootNode
    · exact h
    · dsimp only
      split
      · exact h
      · by_cases hir : i = r
        · subst hir; simp [posSet]
        · simpa [posSet, hir] using h

theorem extraStage_isSome_mono (cosA sinA : ℚ → ℚ) (cX cY : ℚ) (s : AppState)
    (sizes : SizeMap) (pos : PosMap) (i : Nat) (h : (pos i).isSome) :
    ((extraStage cosA sinA cX cY s sizes pos) i).isSome := by
  rw [extraStage]
  rcases getRootId s with _ | r
  · exact h
  · dsimp only
    split
    · exact h
    · apply foldl_posmap_isSome
      · intro p q hp
        rw [extraStep]
        split
        · exact hp
        · by_cases hqi : i = q.2.id
          · subst hqi; simp [posSet]
          · simpa [posSet, hqi] using hp
      · exact h

/-- Every node id has a position after the pre-BFS stages. -/
theorem preStage_isSome (cosA sinA : ℚ → ℚ) (cX cY : ℚ) (s : AppState)
    (sizes : SizeMap) (cache : PosMap) (n : Node) (hm : n ∈ s.nodes) :
    ((preStage cosA sinA cX cY s sizes cache) n.id).isSome := by
  rw [preStage]
  exact extraStage_isSome_mono _ _ _ _ _ _ _ _
    (rootStage_isSome_mono _ _ _ _ _
      (seedStage_isSome _ _ _ _ _ _ _ hm))

theorem childPlaceStep_writes (cosA sinA : ℚ → ℚ) (parentPos : Pos)
    (distance : ℚ) (len : Nat) (q : Nat × Nat) :
    ∀ p : PosMap, childPlaceStep cosA sinA parentPos distance len p q q.2 =
      some ⟨parentPos.x + cosA (-(1 / 2) + (2 * (q.1 : ℚ)) / (len : ℚ)) * distance,
            parentPos.y + sinA (-(1 / 2) + (2 * (q.1 : ℚ)) / (len : ℚ)) * distance⟩ := by
  intro p
  rw [childPlaceStep]
  simp [posSet]

/-- The child-placement writes do not depend on the incoming map, so two
runs agree at `i` whenever the maps already agree there or `i` is written. -/
theorem childPlace_agree (cosA sinA : ℚ → ℚ) (s : AppState) (sizes : SizeMap)
    (parentId : Nat) (parentPos : Pos) (pos₁ pos₂ : PosMap) (i : Nat)
    (h : pos₁ i = pos₂ i ∨ i ∈ autoChildrenOf s parentId) :
    childPlace cosA sinA s sizes parentId parentPos pos₁ i =
      childPlace cosA sinA s sizes parentId parentPos pos₂ i := by
  rw [childPlace, childPlace]
  split
  · rcases h with h | h
    · exact h
    · exfalso
      rename_i hemp
      rw [List.isEmpty_iff] at hemp
      rw [hemp] at h
      cases h
  · apply foldl_write_cases
    · intro q _
      exact childPlaceStep_cases cosA sinA parentPos _ _ q i
    · rcases h with h | h
      · exact Or.inl h
      · right
        rcases List.getElem?_of_mem h with ⟨k, hk⟩
        exact ⟨(k, i), List.mk_mem_enum_iff_getElem?.mpr hk, _,
          childPlaceStep_writes cosA sinA parentPos _ _ (k, i)⟩

/-- The BFS simulation for claim C6: two runs from the same queue whose maps
agree on the queue and on all locked ids produce, at every id, either equal
positions or each run's untouched input value. -/
theorem layoutBFS_sim (cosA sinA : ℚ → ℚ) (s : AppState) (sizes : SizeMap) :
    ∀ (fuel : Nat) (queue seen : List Nat) (p₁ p₂ : PosMap),
      (∀ i ∈ queue, p₁ i = p₂ i) →
      (∀ i, lockedOf s i = true → p₁ i = p₂ i) →
      ∀ i, layoutBFS cosA sinA s sizes fuel queue seen p₁ i =
            layoutBFS cosA sinA s sizes fuel queue seen p₂ i ∨
        (layoutBFS cosA sinA s sizes fuel queue seen p₁ i = p₁ i ∧
          layoutBFS cosA sinA s sizes fuel queue seen p₂ i = p₂ i) := by
  intro fuel
  induction fuel with
  | zero => intro queue seen p₁ p₂ _ _ i; exact Or.inr ⟨rfl, rfl⟩
  | succ fuel ih =>
    intro queue seen p₁ p₂ hq hlock i
    cases queue with
    | nil => exact Or.inr ⟨rfl, rfl⟩
    | cons parentId rest =>
      have hpq : p₁ parentId = p₂ parentId := hq parentId (List.mem_cons_self _ _)
      rw [layoutBFS, layoutBFS]
      rcases hpp : p₁ parentId with _ | pp
      · rw [hpq.symm.trans hpp]
        exact ih rest seen p₁ p₂ (fun j hj => hq j (List.mem_cons_of_mem _ hj))
          hlock i
      · rw [hpq.symm.trans hpp]
        dsimp only
        have hA1 : ∀ j, p₁ j = p₂ j →
            childPlace cosA sinA s sizes parentId pp p₁ j =
              childPlace cosA sinA s sizes parentId pp p₂ j :=
          fun j hj => childPlace_agree _ _ _ _ _ _ _ _ j (Or.inl hj)
        have hA2 : ∀ j ∈ autoChildrenOf s parentId,
            childPlace cosA sinA s sizes parentId pp p₁ j =
              childPlace cosA sinA s sizes parentId pp p₂ j :=
          fun j hj => childPlace_agree _ _ _ _ _ _ _ _ j (Or.inr hj)
        have hq' : ∀ j ∈ ((childrenOf s.links parentId).foldl
            (fun (qs : List Nat × List Nat) c =>
              if c ∈ qs.2 then qs else (qs.1 ++ [c], c :: qs.2))
            (rest, seen)).1,
            childPlace cosA sinA s sizes parentId pp p₁ j =
              childPlace cosA sinA s sizes parentId pp p₂ j := by
          intro j hj
          rcases enqueue_fold_mem _ _ _ j hj with hjr | hjc
          · exact hA1 j (hq j (List.mem_cons_of_mem _ hjr))
          · by_cases hjl : lockedOf s j = true
            · exact hA1 j (hlock j hjl)
            · exact hA2 j (List.mem_filter.mpr ⟨hjc, by simp [hjl]⟩)
        have hlock' : ∀ j, lockedOf s j = true →
            childPlace cosA sinA s sizes parentId pp p₁ j =
              childPlace cosA sinA s sizes parentId pp p₂ j :=
          fun j hjl => hA1 j (hlock j hjl)
        rcases ih _ _ _ _ hq' hlock' i with hl | ⟨e₁, e₂⟩
        · exact Or.inl hl
        · by_cases hw : i ∈ autoChildrenOf s parentId
          · exact Or.inl (e₁.trans ((hA2 i hw).trans e₂.symm))
          · exact Or.inr
              ⟨e₁.trans (childPlace_preserve _ _ _ _ _ _ _ i hw),
               e₂.trans (childPlace_preserve _ _ _ _ _ _ _ i hw)⟩

theorem nodesByIdGet_mem {nodes : List Node} {i : Nat} {nd : Node}
    (h : nodesByIdGet nodes i = some nd) : nd ∈ nodes ∧ nd.id = i := by
  have hmem : nd ∈ nodes.filter (fun x => x.id == i) :=
    List.mem_of_mem_getLast? h
  exact ⟨List.mem_of_mem_filter hmem, by simpa using List.of_mem_filter hmem⟩

theorem rootStage_ne (cX cY : ℚ) (s : AppState) (pos : PosMap) (i : Nat)
    (h : ∀ r, getRootId s = some r → r ≠ i) :
    rootStage cX cY s pos i = pos i := by
  rw [rootStage]
  rcases hr : getRootId s with _ | r
  · rfl
  · dsimp only
    rcases nodesByIdGet s.nodes r with _ | rootNode
    · rfl
    · dsimp only
      split
      · rfl
      · simp [posSet, Ne.symm (h r hr)]

theorem extraRootsOf_ne_root {s : AppState} {e : Node} {r : Nat}
    (he : e ∈ extraRootsOf s) (hr : getRootId s = some r) : e.id ≠ r := by
  have := List.of_mem_filter he
  rw [hr] at this
  intro hc
  rw [hc] at this
  simp at this

theorem extraStep_writes (cosA sinA : ℚ → ℚ) (rootPosition : Pos)
    (extraRadius : ℚ) (len : Nat) (q : Nat × Node)
    (hl : q.2.positionLocked = false) :
    ∀ p : PosMap, extraStep cosA sinA rootPosition extraRadius len p q q.2.id =
      some ⟨rootPosition.x + cosA (-(1 / 2) + (2 * (q.1 : ℚ)) / (len : ℚ)) * extraRadius,
            rootPosition.y + sinA (-(1 / 2) + (2 * (q.1 : ℚ)) / (len : ℚ)) * extraRadius⟩ := by
  intro p
  rw [extraStep, if_neg (by simp [hl])]
  simp [posSet]

theorem extraRootsOf_sub {s : AppState} {e : Node} (he : e ∈ extraRootsOf s) :
    e ∈ s.nodes :=
  List.mem_of_mem_filter (List.mem_of_mem_filter he)

/-- Ids outside the node set end with no position. -/
theorem preStage_not_node (cosA sinA : ℚ → ℚ) (cX cY : ℚ) (s : AppState)
    (sizes : SizeMap) (cache : PosMap) (i : Nat)
    (hi : i ∉ s.nodes.map (·.id)) :
    preStage cosA sinA cX cY s sizes cache i = none := by
  rw [preStage]
  rw [extraStage_preserve _ _ _ _ _ _ _ i
    (fun e he => Or.inr (fun hc =>
      hi (hc ▸ List.mem_map_of_mem (fun x : Node => x.id) (extraRootsOf_sub he))))]
  rw [rootStage_ne _ _ _ _ i
    (fun r hr hc => hi (hc ▸ getRootId_mem hr))]
  rw [seedStage_not_node _ _ _ _ _ _ i hi]
  rw [purgeStage, if_neg hi]

/-- At a locked id, the pre-BFS stages reduce to the seed stage. -/
theorem preStage_locked_eq_seed (cosA sinA : ℚ → ℚ) (cX cY : ℚ)
    (s : AppState) (sizes : SizeMap) (cache : PosMap) (i : Nat)
    (hnd : (s.nodes.map (·.id)).Nodup) (hl : lockedOf s i = true) :
    preStage cosA sinA cX cY s sizes cache i =
      seedStage cosA sinA cX cY s (purgeStage s cache) i := by
  rw [preStage, extraStage_locked _ _ _ _ _ _ _ _ hnd hl,
    rootStage_locked _ _ _ _ _ hl]

/-- At a locked id, the whole layout reduces to the seed stage. -/
theorem computeLayout_locked_eq_seed (cosA sinA : ℚ → ℚ) (cX cY : ℚ)
    (s : AppState) (sizes : SizeMap) (cache : PosMap) (i : Nat)
    (hnd : (s.nodes.map (·.id)).Nodup) (hl : lockedOf s i = true) :
    computeLayout cosA sinA cX cY s sizes cache i =
      seedStage cosA sinA cX cY s (purgeStage s cache) i := by
  rw [computeLayout]
  rcases hr : getRootId s with _ | r
  · exact preStage_locked_eq_seed _ _ _ _ _ _ _ i hnd hl
  · dsimp only
    rw [layoutBFS_locked _ _ _ _ i hl]
    exact preStage_locked_eq_seed _ _ _ _ _ _ _ i hnd hl

theorem extraStage_agree (cosA sinA : ℚ → ℚ) (cX cY : ℚ) (s : AppState)
    (sizes : SizeMap) (pos₁ pos₂ : PosMap) (i : Nat)
    (hragree : ∀ r, getRootId s = some r → pos₁ r = pos₂ r)
    (h : pos₁ i = pos₂ i ∨
      ∃ e ∈ extraRootsOf s, e.id = i ∧ e.positionLocked = false) :
    extraStage cosA sinA cX cY s sizes pos₁ i =
      extraStage cosA sinA cX cY s sizes pos₂ i := by
  rw [extraStage, extraStage]
  rcases hr : getRootId s with _ | r
  · rcases h with h | ⟨e, he, _⟩
    · exact h
    · have hnil := getRootId_none hr
      have hmem := extraRootsOf_sub he
      rw [hnil] at hmem
      cases hmem
  · dsimp only
    by_cases hemp : (extraRootsOf s).isEmpty
    · rw [if_pos hemp, if_pos hemp]
      rcases h with h | ⟨e, he, _⟩
      · exact h
      · rw [List.isEmpty_iff] at hemp
        rw [hemp] at he
        cases he
    · rw [if_neg hemp, if_neg hemp, hragree r hr]
      apply foldl_write_cases
      · intro q _
        exact extraStep_cases _ _ _ _ _ q i
      · rcases h with h | ⟨e, he, heid, hel⟩
        · exact Or.inl h
        · right
          rcases List.getElem?_of_mem he with ⟨k, hk⟩
          exact ⟨(k, e), List.mk_mem_enum_iff_getElem?.mpr hk, _,
            heid ▸ extraStep_writes _ _ _ _ _ (k, e) hel⟩

theorem seed_agree_locked (cosA sinA : ℚ → ℚ) (cX cY : ℚ) (s : AppState)
    (sizes : SizeMap) (cache : PosMap) (i : Nat)
    (hnd : (s.nodes.map (·.id)).Nodup) (hl : lockedOf s i = true) :
    seedStage cosA sinA cX cY s
        (purgeStage s (computeLayout cosA sinA cX cY s sizes cache)) i =
      seedStage cosA sinA cX cY s (purgeStage s cache) i := by
  have hsome : ∃ nd, nodesByIdGet s.nodes i = some nd := by
    rcases hg : nodesByIdGet s.nodes i with _ | nd
    · rw [lockedOf, hg] at hl
      exact absurd hl (by simp)
    · exact ⟨nd, rfl⟩
  obtain ⟨nd, hget⟩ := hsome
  have hndl : nd.positionLocked = true := by
    rw [lockedOf, hget] at hl
    exact hl
  obtain ⟨hmem, hid⟩ := nodesByIdGet_mem hget
  subst hid
  by_cases hpos : nd.position.isSome
  · obtain ⟨pin, hpin⟩ := Option.isSome_iff_exists.mp hpos
    rw [seedStage_pinned cosA sinA cX cY s _ nd pin hnd hmem hndl hpin,
      seedStage_pinned cosA sinA cX cY s _ nd pin hnd hmem hndl hpin]
  · have hnp : (nd.positionLocked && nd.position.isSome) = false := by
      simp [hpos]
    have hf₁ : computeLayout cosA sinA cX cY s sizes cache nd.id =
        seedStage cosA sinA cX cY s (purgeStage s cache) nd.id :=
      computeLayout_locked_eq_seed cosA sinA cX cY s sizes cache nd.id hnd
        (by rw [lockedOf, hget]; exact hndl)
    obtain ⟨v, hv⟩ := Option.isSome_iff_exists.mp
      (seedStage_isSome cosA sinA cX cY s (purgeStage s cache) nd hmem)
    rw [hv]
    apply seedStage_keep cosA sinA cX cY s _ nd v hnd hmem hnp
    rw [purgeStage]
    rw [if_pos (List.mem_map_of_mem (fun x : Node => x.id) hmem)]
    rw [hf₁, hv]

theorem pre_locked_agree (cosA sinA : ℚ → ℚ) (cX cY : ℚ) (s : AppState)
    (sizes : SizeMap) (cache : PosMap) (i : Nat)
    (hnd : (s.nodes.map (·.id)).Nodup) (hl : lockedOf s i = true) :
    preStage cosA sinA cX cY s sizes
        (computeLayout cosA sinA cX cY s sizes cache) i =
      preStage cosA sinA cX cY s sizes cache i := by
  rw [preStage_locked_eq_seed _ _ _ _ _ _ _ i hnd hl,
    preStage_locked_eq_seed _ _ _ _ _ _ _ i hnd hl]
  exact seed_agree_locked cosA sinA cX cY s sizes cache i hnd hl

theorem afterRoot_agree (cosA sinA : ℚ → ℚ) (cX cY : ℚ) (s : AppState)
    (sizes : SizeMap) (cache : PosMap) (r : Nat)
    (hnd : (s.nodes.map (·.id)).Nodup) (hroot : getRootId s = some r) :
    rootStage cX cY s (seedStage cosA sinA cX cY s
        (purgeStage s (computeLayout cosA sinA cX cY s sizes cache))) r =
      rootStage cX cY s (seedStage cosA sinA cX cY s (purgeStage s cache)) r := by
  have hrin : r ∈ s.nodes.map (·.id) := getRootId_mem hroot
  obtain ⟨nd, hmem, hid⟩ := List.mem_map.mp hrin
  have hget : nodesByIdGet s.nodes r = some nd :=
    hid ▸ nodesByIdGet_of_nodup s.nodes nd hnd hmem
  rw [rootStage, rootStage, hroot]
  dsimp only
  rw [hget]
  dsimp only
  by_cases hndl : nd.positionLocked
  · rw [if_pos hndl, if_pos hndl]
    exact seed_agree_locked cosA sinA cX cY s sizes cache r hnd
      (by rw [lockedOf, hget]; exact hndl)
  · rw [if_neg hndl, if_neg hndl]
    simp [posSet]

theorem pre_agree_root (cosA sinA : ℚ → ℚ) (cX cY : ℚ) (s : AppState)
    (sizes : SizeMap) (cache : PosMap) (r : Nat)
    (hnd : (s.nodes.map (·.id)).Nodup) (hroot : getRootId s = some r) :
    preStage cosA sinA cX cY s sizes
        (computeLayout cosA sinA cX cY s sizes cache) r =
      preStage cosA sinA cX cY s sizes cache r := by
  rw [preStage, preStage,
    extraStage_preserve _ _ _ _ _ _ _ r
      (fun e he => Or.inr (extraRootsOf_ne_root he hroot)),
    extraStage_preserve _ _ _ _ _ _ _ r
      (fun e he => Or.inr (extraRootsOf_ne_root he hroot))]
  exact afterRoot_agree cosA sinA cX cY s sizes cache r hnd hroot

/-- Ids the BFS left untouched get the same pre-stage value in a second
pass: the second pass's cache entry is exactly the first pass's result. -/
theorem pre_stable (cosA sinA : ℚ → ℚ) (cX cY : ℚ) (s : AppState)
    (sizes : SizeMap) (cache : PosMap)
    (hnd : (s.nodes.map (·.id)).Nodup) :
    ∀ i, computeLayout cosA sinA cX cY s sizes cache i =
        preStage cosA sinA cX cY s sizes cache i →
      preStage cosA sinA cX cY s sizes
          (computeLayout cosA sinA cX cY s sizes cache) i =
        preStage cosA sinA cX cY s sizes cache i := by
  intro i hfi
  by_cases hin : i ∈ s.nodes.map (·.id)
  case neg =>
    rw [preStage_not_node _ _ _ _ _ _ _ i hin, preStage_not_node _ _ _ _ _ _ _ i hin]
  case pos =>
    obtain ⟨nd, hmem, hid⟩ := List.mem_map.mp hin
    subst hid
    have hget : nodesByIdGet s.nodes nd.id = some nd :=
      nodesByIdGet_of_nodup s.nodes nd hnd hmem
    by_cases hlofb : lockedOf s nd.id = true
    · exact pre_locked_agree cosA sinA cX cY s sizes cache nd.id hnd hlofb
    · have hndl : nd.positionLocked = false := by
        rw [lockedOf, hget] at hlofb
        exact Bool.eq_false_iff.mpr hlofb
      have hnp : (nd.positionLocked && nd.position.isSome) = false := by
        simp [hndl]
      obtain ⟨v, hv⟩ := Option.isSome_iff_exists.mp
        (preStage_isSome cosA sinA cX cY s sizes cache nd hmem)
      have hseed₂ : seedStage cosA sinA cX cY s
          (purgeStage s (computeLayout cosA sinA cX cY s sizes cache)) nd.id
          = some v := by
        apply seedStage_keep cosA sinA cX cY s _ nd v hnd hmem hnp
        rw [purgeStage, if_pos hin, hfi, hv]
      rcases hroot : getRootId s with _ | r
      · have hnil := getRootId_none hroot
        rw [hnil] at hmem
        cases hmem
      · by_cases hreq : r = nd.id
        · subst hreq
          have hcent : ∀ X : PosMap,
              rootStage cX cY s (seedStage cosA sinA cX cY s (purgeStage s X))
                nd.id = some ⟨cX, cY⟩ := by
            intro X
            rw [rootStage, hroot]
            dsimp only
            rw [hget]
            dsimp only
            rw [if_neg (by simp [hndl])]
            simp [posSet]
          rw [preStage, preStage,
            extraStage_preserve _ _ _ _ _ _ _ nd.id
              (fun e he => Or.inr (extraRootsOf_ne_root he hroot)),
            extraStage_preserve _ _ _ _ _ _ _ nd.id
              (fun e he => Or.inr (extraRootsOf_ne_root he hroot)),
            hcent, hcent]
        · have hrootpres : ∀ X : PosMap, rootStage cX cY s X nd.id = X nd.id :=
            fun X => rootStage_ne cX cY s X nd.id (fun r' hr' => by
              rw [hroot] at hr'
              intro hc
              exact hreq ((Option.some_inj.mp hr') ▸ hc))
          by_cases hw : ∃ e ∈ extraRootsOf s,
              e.id = nd.id ∧ e.positionLocked = false
          · rw [preStage, preStage]
            apply extraStage_agree _ _ _ _ _ _ _ _ nd.id
            · intro r' hr'
              have hrr : r' = r := by
                rw [hroot] at hr'
                exact (Option.some_inj.mp hr').symm
              subst hrr
              exact afterRoot_agree cosA sinA cX cY s sizes cache r' hnd hroot
            · exact Or.inr hw
          · push_neg at hw
            have hpres : ∀ e ∈ extraRootsOf s,
                e.positionLocked = true ∨ e.id ≠ nd.id := by
              intro e he
              by_cases heid : e.id = nd.id
              · left
                have := hw e he heid
                cases hel : e.positionLocked with
                | true => rfl
                | false => exact absurd hel this
              · exact Or.inr heid
            have hv' := hv
            rw [preStage, extraStage_preserve _ _ _ _ _ _ _ nd.id hpres,
              hrootpres] at hv'
            rw [preStage, preStage,
              extraStage_preserve _ _ _ _ _ _ _ nd.id hpres,
              extraStage_preserve _ _ _ _ _ _ _ nd.id hpres,
              hrootpres, hrootpres, hseed₂, hv']

/-- Claim C6: the layout is deterministic — `computeLayout` is a pure
function of the node order, link order, lock state, sizes, viewport centre
and position cache (the only seeding being the fallback angle, a pure
function of a node's index), and calling it twice in a row (the second call
reading the cache the first one produced, no drag in between) yields
identical positions for every node: the pass is idempotent on the cache. -/
theorem layout_determinism :
    ∀ (cosA sinA : ℚ → ℚ) (cX cY : ℚ) (s : AppState) (sizes : SizeMap)
      (cache : PosMap), (s.nodes.map (·.id)).Nodup →
      computeLayout cosA sinA cX cY s sizes
          (computeLayout cosA sinA cX cY s sizes cache) =
        computeLayout cosA sinA cX cY s sizes cache := by
  intro cosA sinA cX cY s sizes cache hnd
  funext i
  have hexp : ∀ c' : PosMap,
      (∀ r, getRootId s = some r →
        computeLayout cosA sinA cX cY s sizes c' =
          layoutBFS cosA sinA s sizes (s.nodes.length + s.links.length + 2)
            [r] [r] (preStage cosA sinA cX cY s sizes c')) := by
    intro c' r hr
    rw [computeLayout, hr]
  rcases hroot : getRootId s with _ | r
  · have hnil := getRootId_none hroot
    rw [computeLayout, computeLayout, hroot]
    dsimp only
    rw [preStage_not_node _ _ _ _ _ _ _ i (by rw [hnil]; simp),
      preStage_not_node _ _ _ _ _ _ _ i (by rw [hnil]; simp)]
  · have hq : ∀ j ∈ [r],
        preStage cosA sinA cX cY s sizes
            (computeLayout cosA sinA cX cY s sizes cache) j =
          preStage cosA sinA cX cY s sizes cache j := by
      intro j hj
      rw [List.mem_singleton.mp hj]
      exact pre_agree_root cosA sinA cX cY s sizes cache r hnd hroot
    have hlock : ∀ j, lockedOf s j = true →
        preStage cosA sinA cX cY s sizes
            (computeLayout cosA sinA cX cY s sizes cache) j =
          preStage cosA sinA cX cY s sizes cache j :=
      fun j hjl => pre_locked_agree cosA sinA cX cY s sizes cache j hnd hjl
    have key : layoutBFS cosA sinA s sizes
        (s.nodes.length + s.links.length + 2) [r] [r]
        (preStage cosA sinA cX cY s sizes
          (computeLayout cosA sinA cX cY s sizes cache)) i =
        layoutBFS cosA sinA s sizes
        (s.nodes.length + s.links.length + 2) [r] [r]
        (preStage cosA sinA cX cY s sizes cache) i := by
      rcases layoutBFS_sim cosA sinA s sizes
          (s.nodes.length + s.links.length + 2) [r] [r] _ _ hq hlock i with
        hl | ⟨e₁, e₂⟩
      · exact hl
      · rw [e₁, e₂]
        exact pre_stable cosA sinA cX cY s sizes cache hnd i
          (by rw [hexp cache r hroot]; exact e₂)
    conv_lhs => rw [hexp (computeLayout cosA sinA cX cY s sizes cache) r hroot]
    conv_rhs => rw [hexp cache r hroot]
    exact key

/-- Witness for `layout_determinism` on `lockedState` with concrete angle
functions, centre and sizes. -/
theorem layout_determinism_witness :
    computeLayout (fun q => q) (fun q => q + 1) 100 50 lockedState
        (fun _ => none)
        (computeLayout (fun q => q) (fun q => q + 1) 100 50 lockedState
          (fun _ => none) (fun _ => none)) =
      computeLayout (fun q => q) (fun q => q + 1) 100 50 lockedState
        (fun _ => none) (fun _ => none) :=
  layout_determinism (fun q => q) (fun q => q + 1) 100 50 lockedState
    (fun _ => none) (fun _ => none)
    (by norm_num [lockedState, mkNode])

/-! ### Drag: `collectDescendants` and the `mousemove` node-drag branch -/

/-- The while-loop of `collectDescendants` (src/app.js lines 142-158) with an
explicit fuel bound.  `visited` is the JS `Set` in insertion order: the
dequeued id is added before its unvisited children are pushed, and the queue
may hold duplicates (they are skipped at dequeue time, as in the source). -/
def collectDescGo (links : List Link) : Nat → List Nat → List Nat → List Nat
  | 0, _, visited => visited
  | _ + 1, [], visited => visited
  | fuel + 1, c :: queue, visited =>
    if visited.contains c then collectDescGo links fuel queue visited
    else
      collectDescGo links fuel
        (queue ++ (childrenOf links c).filter
          (fun ch => !((visited ++ [c]).contains ch)))
        (visited ++ [c])

/-- `collectDescendants(rootId, childrenMap)`.  Each id is expanded at most
once and every expansion pushes at most one queue entry per link, so
`links.length + 2` dequeues drain the queue. -/
def collectDescendants (links : List Link) (rootId : Nat) : List Nat :=
  collectDescGo links (links.length + 2) [rootId] []

/-- The `dragStartPositions` map built on `mousedown` (src/app.js lines
605-616): for each subtree id, the cached position if present, else the
node's own `position`; ids with neither get no entry.  Afterwards the
dragged node itself falls back to its rendered position if still missing. -/
def startsBase (nodes : List Node) (cache : PosMap)
    (subtree : List Nat) : Nat → Option Pos :=
  subtree.foldl
    (fun acc nodeId =>
      match (cache nodeId).or
          ((nodesByIdGet nodes nodeId).bind (fun nd => nd.position)) with
      | some st => fun j => if j = nodeId then some st else acc j
      | none => acc)
    (fun _ => none)

def startsOf (nodes : List Node) (cache : PosMap) (subtree : List Nat)
    (p : Nat) (renderPos : Pos) : Nat → Option Pos :=
  if (startsBase nodes cache subtree p).isSome then
    startsBase nodes cache subtree
  else fun j =>
    if j = p then some renderPos else startsBase nodes cache subtree j

/-- The drag vector of src/app.js lines 994-1000: `nextPosition` minus the
dragged node's start (its recorded start, else its own `position`), or
`{0,0}` when neither exists. -/
def dragDelta (starts : Nat → Option Pos) (node : Node) (next : Pos) : Pos :=
  match (starts node.id).or node.position with
  | some r => ⟨next.x - r.x, next.y - r.y⟩
  | none => ⟨0, 0⟩

/-- In-place mutation `movedNode.position = ...; movedNode.positionLocked =
true` where `movedNode = nodesById.get(nodeId)`: the JS `Map` keeps the last
entry per key, so the last list occurrence with this id is updated. -/
def mutateNode (nodes : List Node) (i : Nat) (p : Pos) : List Node :=
  match nodes with
  | [] => []
  | nd :: rest =>
    if rest.any (fun x => x.id == i) then nd :: mutateNode rest i p
    else if nd.id == i then
      { nd with position := some p, positionLocked := true } :: rest
    else nd :: rest

/-- One iteration of the `idsToMove.forEach` body (src/app.js lines
1008-1031): skip ids with no recorded start, skip ids with no node (ids are
never changed by the mutation, so checking the current list agrees with the
pre-loop `nodesById` map), otherwise move the node to `start + delta`, lock
it, and write the cache. -/
def dragStep (starts : Nat → Option Pos) (delta : Pos)
    (acc : List Node × PosMap) (nodeId : Nat) : List Node × PosMap :=
  match starts nodeId with
  | none => acc
  | some start =>
    match nodesByIdGet acc.1 nodeId with
    | none => acc
    | some _ =>
      (mutateNode acc.1 nodeId ⟨start.x + delta.x, start.y + delta.y⟩,
        posSet acc.2 nodeId ⟨start.x + delta.x, start.y + delta.y⟩)

/-- Result of one `mousemove` step while a node drag is active. -/
structure DragResult where
  nodes : List Node
  cache : PosMap
  didDragNode : Bool

/-- The node-drag branch of the `mapViewport` `mousemove` handler
(src/app.js lines 984-1031), with the pointer-derived target position
`next` (`mapPoint + dragOffset`) as a parameter.  `didDragNode` is set only
when the drag vector exceeds the 2-pixel threshold in some axis; the moves,
locks and cache writes below it are unconditional. -/
def dragMove (nodes : List Node) (cache : PosMap) (didDragNode : Bool)
    (draggedNodeId : Nat) (subtree : List Nat) (starts : Nat → Option Pos)
    (next : Pos) : DragResult :=
  match nodes.find? (fun nd => nd.id == draggedNodeId) with
  | none => ⟨nodes, cache, didDragNode⟩
  | some node =>
    let delta := dragDelta starts node next
    let didDrag := didDragNode ||
      (decide (2 < |delta.x|) || decide (2 < |delta.y|))
    let idsToMove := if subtree.isEmpty then [node.id] else subtree
    let res := idsToMove.foldl (dragStep starts delta) (nodes, cache)
    ⟨res.1, res.2, didDrag⟩

theorem collectDescGo_mono (links : List Link) :
    ∀ (fuel : Nat) (queue visited : List Nat) (x : Nat), x ∈ visited →
      x ∈ collectDescGo links fuel queue visited := by
  intro fuel
  induction fuel with
  | zero => intro queue visited x hx; exact hx
  | succ n ih =>
    intro queue visited x hx
    cases queue with
    | nil => exact hx
    | cons c rest =>
      rw [collectDescGo]
      by_cases hc : visited.contains c = true
      · rw [if_pos hc]; exact ih rest visited x hx
      · rw [if_neg hc]
        exact ih _ _ x (List.mem_append_left _ hx)

theorem collectDescGo_nodup (links : List Link) :
    ∀ (fuel : Nat) (queue visited : List Nat), visited.Nodup →
      (collectDescGo links fuel queue visited).Nodup := by
  intro fuel
  induction fuel with
  | zero => intro queue visited hv; exact hv
  | succ n ih =>
    intro queue visited hv
    cases queue with
    | nil => exact hv
    | cons c rest =>
      rw [collectDescGo]
      by_cases hc : visited.contains c = true
      · rw [if_pos hc]; exact ih rest visited hv
      · rw [if_neg hc]
        refine ih _ _ ?_
        rw [List.nodup_append]
        refine ⟨hv, List.nodup_singleton c, ?_⟩
        intro a ha hb
        rw [List.mem_singleton] at hb
        exact hc (by simpa using (hb ▸ ha : c ∈ visited))

theorem mem_collectDescendants_self (links : List Link) (rootId : Nat) :
    rootId ∈ collectDescendants links rootId := by
  rw [collectDescendants, collectDescGo]
  rw [if_neg (by simp)]
  exact collectDescGo_mono links _ _ _ rootId (by simp)

theorem collectDescendants_nodup (links : List Link) (rootId : Nat) :
    (collectDescendants links rootId).Nodup :=
  collectDescGo_nodup links _ _ _ List.nodup_nil

theorem mutateNode_ids (i : Nat) (p : Pos) :
    ∀ nodes : List Node, (mutateNode nodes i p).map (·.id) = nodes.map (·.id) := by
  intro nodes
  induction nodes with
  | nil => rfl
  | cons nd rest ih =>
    rw [mutateNode]
    by_cases ha : rest.any (fun x => x.id == i)
    · rw [if_pos ha, List.map_cons, List.map_cons, ih]
    · rw [if_neg ha]
      by_cases hid : nd.id == i
      · rw [if_pos hid]; rfl
      · rw [if_neg hid]

theorem mutateNode_filter_other (i : Nat) (p : Pos) (j : Nat) (hne : j ≠ i) :
    ∀ nodes : List Node,
      (mutateNode nodes i p).filter (fun x => x.id == j) =
        nodes.filter (fun x => x.id == j) := by
  intro nodes
  induction nodes with
  | nil => rfl
  | cons nd rest ih =>
    rw [mutateNode]
    by_cases ha : rest.any (fun x => x.id == i)
    · rw [if_pos ha, List.filter_cons, List.filter_cons, ih]
    · rw [if_neg ha]
      by_cases hid : nd.id == i
      · rw [if_pos hid, List.filter_cons, List.filter_cons]
        have hid' : nd.id = i := beq_iff_eq.mp hid
        have hndj : (nd.id == j) = false :=
          beq_eq_false_iff_ne.mpr (fun hc => hne (hc ▸ hid'))
        simp only [hndj]
        rfl
      · rw [if_neg hid]

theorem mutateNode_get_other (i : Nat) (p : Pos) (j : Nat) (hne : j ≠ i)
    (nodes : List Node) :
    nodesByIdGet (mutateNode nodes i p) j = nodesByIdGet nodes j := by
  rw [nodesByIdGet, nodesByIdGet, mutateNode_filter_other i p j hne]

theorem mutateNode_get_self (i : Nat) (p : Pos) :
    ∀ (nodes : List Node) (nd : Node), (nodes.map (·.id)).Nodup →
      nodesByIdGet nodes i = some nd →
      nodesByIdGet (mutateNode nodes i p) i =
        some { nd with position := some p, positionLocked := true } := by
  intro nodes
  induction nodes with
  | nil => intro nd _ h; cases h
  | cons a rest ih =>
    intro nd hnd h
    simp only [List.map_cons, List.nodup_cons] at hnd
    rw [mutateNode]
    by_cases ha : rest.any (fun x => x.id == i)
    · rw [if_pos ha]
      have haid : (a.id == i) = false := by
        obtain ⟨x, hx, hxe⟩ := List.any_eq_true.mp ha
        have hxid : x.id = i := by simpa using hxe
        refine beq_eq_false_iff_ne.mpr ?_
        intro hc
        exact hnd.1 (by
          rw [hc, ← hxid]
          exact List.mem_map_of_mem (fun y : Node => y.id) hx)
      rw [nodesByIdGet, List.filter_cons, if_neg (by simp [haid])] at h
      rw [nodesByIdGet, List.filter_cons, if_neg (by simp [haid])]
      exact ih nd hnd.2 h
    · rw [if_neg ha]
      have hrest : rest.filter (fun x => x.id == i) = [] := by
        rw [List.filter_eq_nil_iff]
        intro x hx hxe
        exact ha (List.any_eq_true.mpr ⟨x, hx, hxe⟩)
      rw [nodesByIdGet, List.filter_cons, hrest] at h
      by_cases hid : (a.id == i) = true
      · rw [if_pos hid] at h
        have hna : nd = a := by
          simp only [List.getLast?_singleton, Option.some_inj] at h
          exact h.symm
        rw [if_pos hid, nodesByIdGet, List.filter_cons]
        rw [if_pos (by simpa using hid), hrest]
        rw [hna]
        exact List.getLast?_singleton _
      · rw [if_neg hid] at h
        cases h

theorem dragStep_other (starts : Nat → Option Pos) (delta : Pos)
    (acc : List Node × PosMap) (a j : Nat) (hne : j ≠ a) :
    nodesByIdGet (dragStep starts delta acc a).1 j = nodesByIdGet acc.1 j ∧
      (dragStep starts delta acc a).2 j = acc.2 j := by
  rw [dragStep]
  rcases hs : starts a with _ | st
  · exact ⟨rfl, rfl⟩
  · dsimp only
    rcases hg : nodesByIdGet acc.1 a with _ | nd
    · exact ⟨rfl, rfl⟩
    · dsimp only
      exact ⟨mutateNode_get_other a _ j hne acc.1, by rw [posSet, if_neg hne]⟩

theorem dragStep_ids (starts : Nat → Option Pos) (delta : Pos)
    (acc : List Node × PosMap) (a : Nat) :
    ((dragStep starts delta acc a).1).map (·.id) = acc.1.map (·.id) := by
  rw [dragStep]
  rcases hs : starts a with _ | st
  · rfl
  · dsimp only
    rcases hg : nodesByIdGet acc.1 a with _ | nd
    · rfl
    · dsimp only
      exact mutateNode_ids a _ acc.1

theorem dragFold_untouched (starts : Nat → Option Pos) (delta : Pos) :
    ∀ (ids : List Nat) (acc : List Node × PosMap) (j : Nat), j ∉ ids →
      nodesByIdGet (ids.foldl (dragStep starts delta) acc).1 j =
          nodesByIdGet acc.1 j ∧
        (ids.foldl (dragStep starts delta) acc).2 j = acc.2 j := by
  intro ids
  induction ids with
  | nil => intro acc j _; exact ⟨rfl, rfl⟩
  | cons a rest ih =>
    intro acc j hj
    rw [List.foldl_cons]
    have hne : j ≠ a := fun hc => hj (hc ▸ List.mem_cons_self a rest)
    have hstep := dragStep_other starts delta acc a j hne
    have hrec := ih (dragStep starts delta acc a) j
      (fun hc => hj (List.mem_cons_of_mem a hc))
    exact ⟨hrec.1.trans hstep.1, hrec.2.trans hstep.2⟩

theorem dragFold_moved (starts : Nat → Option Pos) (delta : Pos) :
    ∀ (ids : List Nat) (acc : List Node × PosMap) (i : Nat) (st : Pos)
      (nd : Node), (acc.1.map (·.id)).Nodup → ids.Nodup → i ∈ ids →
      starts i = some st → nodesByIdGet acc.1 i = some nd →
      nodesByIdGet (ids.foldl (dragStep starts delta) acc).1 i =
          some { nd with
            position := some ⟨st.x + delta.x, st.y + delta.y⟩,
            positionLocked := true } ∧
        (ids.foldl (dragStep starts delta) acc).2 i =
          some ⟨st.x + delta.x, st.y + delta.y⟩ := by
  intro ids
  induction ids with
  | nil => intro acc i st nd _ _ hi _ _; cases hi
  | cons a rest ih =>
    intro acc i st nd hacc hids hi hst hnd
    rw [List.foldl_cons]
    rw [List.nodup_cons] at hids
    rcases List.mem_cons.mp hi with rfl | hmem
    · have hstep :
          nodesByIdGet (dragStep starts delta acc i).1 i =
              some { nd with
                position := some ⟨st.x + delta.x, st.y + delta.y⟩,
                positionLocked := true } ∧
            (dragStep starts delta acc i).2 i =
              some ⟨st.x + delta.x, st.y + delta.y⟩ := by
        rw [dragStep, hst]
        dsimp only
        rw [hnd]
        dsimp only
        exact ⟨mutateNode_get_self i _ acc.1 nd hacc hnd,
          by rw [posSet, if_pos rfl]⟩
      have hrest := dragFold_untouched starts delta rest
        (dragStep starts delta acc i) i hids.1
      exact ⟨hrest.1.trans hstep.1, hrest.2.trans hstep.2⟩
    · have hne : i ≠ a := fun hc => hids.1 (hc ▸ hmem)
      have hstep := dragStep_other starts delta acc a i hne
      refine ih (dragStep starts delta acc a) i st nd ?_ hids.2 hmem hst
        (hstep.1.trans hnd)
      rw [dragStep_ids]
      exact hacc

theorem startsOf_self_isSome (nodes : List Node) (cache : PosMap)
    (subtree : List Nat) (p : Nat) (renderPos : Pos) :
    (startsOf nodes cache subtree p renderPos p).isSome := by
  rw [startsOf]
  by_cases h : (startsBase nodes cache subtree p).isSome
  · rw [if_pos h]; exact h
  · rw [if_neg h]; simp

/-- A full node-drag interaction: `mousedown` on node `P` (building the
subtree over `childrenMap` and the drag-start map) followed by one
`mousemove` whose pointer-derived target position is `next`. -/
def dragScenario (links : List Link) (nodes : List Node) (cache : PosMap)
    (dd : Bool) (P : Nat) (renderPos next : Pos) : DragResult :=
  dragMove nodes cache dd P (collectDescendants links P)
    (startsOf nodes cache (collectDescendants links P) P renderPos) next

/-- Claim C8: dragging node `P` is a rigid subtree translation.  The
descendant set is collected cycle-safely over `childrenMap` and always
contains `P`; `P` always has a drag-start position (the `mousedown`
fallback); every descendant with a drag-start position ends at exactly its
own start plus the one drag vector and has `positionLocked` set to `true`
(in the node list and in the layout cache); and every id outside the
descendant set keeps its node record and its cache entry unchanged. -/
theorem rigid_subtree_drag :
    ∀ (links : List Link) (nodes : List Node) (cache : PosMap) (dd : Bool)
      (P : Nat) (renderPos next : Pos) (node : Node),
      (nodes.map (·.id)).Nodup →
      nodes.find? (fun x => x.id == P) = some node →
      P ∈ collectDescendants links P ∧
      (startsOf nodes cache (collectDescendants links P) P renderPos P).isSome ∧
      (∀ i ∈ collectDescendants links P, ∀ st,
        startsOf nodes cache (collectDescendants links P) P renderPos i =
          some st →
        ∀ nd, nodesByIdGet nodes i = some nd →
        nodesByIdGet (dragScenario links nodes cache dd P renderPos next).nodes
            i =
          some { nd with
            position := some
              ⟨st.x + (dragDelta (startsOf nodes cache
                (collectDescendants links P) P renderPos) node next).x,
               st.y + (dragDelta (startsOf nodes cache
                (collectDescendants links P) P renderPos) node next).y⟩,
            positionLocked := true } ∧
        (dragScenario links nodes cache dd P renderPos next).cache i =
          some ⟨st.x + (dragDelta (startsOf nodes cache
              (collectDescendants links P) P renderPos) node next).x,
            st.y + (dragDelta (startsOf nodes cache
              (collectDescendants links P) P renderPos) node next).y⟩) ∧
      (∀ j, j ∉ collectDescendants links P →
        nodesByIdGet (dragScenario links nodes cache dd P renderPos next).nodes
            j = nodesByIdGet nodes j ∧
        (dragScenario links nodes cache dd P renderPos next).cache j =
          cache j) := by
  intro links nodes cache dd P renderPos next node hnd hfind
  have hmemP := mem_collectDescendants_self links P
  have hsubnd := collectDescendants_nodup links P
  have hnil : collectDescendants links P ≠ [] := List.ne_nil_of_mem hmemP
  have hempty : (collectDescendants links P).isEmpty = false := by
    cases h : (collectDescendants links P).isEmpty
    · rfl
    · exact absurd (List.isEmpty_iff.mp h) hnil
  set starts := startsOf nodes cache (collectDescendants links P) P renderPos
    with hstarts
  set dv := dragDelta starts node next with hdv
  have hnodes : (dragScenario links nodes cache dd P renderPos next).nodes =
      ((collectDescendants links P).foldl (dragStep starts dv)
        (nodes, cache)).1 := by
    rw [dragScenario, dragMove, hfind]
    dsimp only
    rw [if_neg (fun hc => Bool.false_ne_true (hempty ▸ hc))]
  have hcache : (dragScenario links nodes cache dd P renderPos next).cache =
      ((collectDescendants links P).foldl (dragStep starts dv)
        (nodes, cache)).2 := by
    rw [dragScenario, dragMove, hfind]
    dsimp only
    rw [if_neg (fun hc => Bool.false_ne_true (hempty ▸ hc))]
  refine ⟨hmemP, startsOf_self_isSome _ _ _ _ _, ?_, ?_⟩
  · intro i hi st hst nd hndi
    have hmv := dragFold_moved starts dv (collectDescendants links P)
      (nodes, cache) i st nd hnd hsubnd hi hst hndi
    exact ⟨by rw [hnodes]; exact hmv.1, by rw [hcache]; exact hmv.2⟩
  · intro j hj
    have hun := dragFold_untouched starts dv (collectDescendants links P)
      (nodes, cache) j hj
    exact ⟨by rw [hnodes]; exact hun.1, by rw [hcache]; exact hun.2⟩

def dragWitnessNodes : List Node :=
  [mkNode 1 10 0 .considering, mkNode 2 20 0 .considering,
   mkNode 3 30 0 .considering]

def dragWitnessLinks : List Link := [⟨1, 2⟩]

/-- Witness for `rigid_subtree_drag`: nodes 1, 2, 3 with link 1→2, empty
cache, dragging node 1 from render position (5,5) towards (10,10). -/
theorem rigid_subtree_drag_witness :
    1 ∈ collectDescendants dragWitnessLinks 1 ∧
    (startsOf dragWitnessNodes (fun _ => none)
      (collectDescendants dragWitnessLinks 1) 1 ⟨5, 5⟩ 1).isSome ∧
    (∀ i ∈ collectDescendants dragWitnessLinks 1, ∀ st,
      startsOf dragWitnessNodes (fun _ => none)
        (collectDescendants dragWitnessLinks 1) 1 ⟨5, 5⟩ i = some st →
      ∀ nd, nodesByIdGet dragWitnessNodes i = some nd →
      nodesByIdGet (dragScenario dragWitnessLinks dragWitnessNodes
          (fun _ => none) false 1 ⟨5, 5⟩ ⟨10, 10⟩).nodes i =
        some { nd with
          position := some
            ⟨st.x + (dragDelta (startsOf dragWitnessNodes (fun _ => none)
              (collectDescendants dragWitnessLinks 1) 1 ⟨5, 5⟩)
              (mkNode 1 10 0 .considering) ⟨10, 10⟩).x,
             st.y + (dragDelta (startsOf dragWitnessNodes (fun _ => none)
              (collectDescendants dragWitnessLinks 1) 1 ⟨5, 5⟩)
              (mkNode 1 10 0 .considering) ⟨10, 10⟩).y⟩,
          positionLocked := true } ∧
      (dragScenario dragWitnessLinks dragWitnessNodes (fun _ => none) false 1
          ⟨5, 5⟩ ⟨10, 10⟩).cache i =
        some ⟨st.x + (dragDelta (startsOf dragWitnessNodes (fun _ => none)
            (collectDescendants dragWitnessLinks 1) 1 ⟨5, 5⟩)
            (mkNode 1 10 0 .considering) ⟨10, 10⟩).x,
          st.y + (dragDelta (startsOf dragWitnessNodes (fun _ => none)
            (collectDescendants dragWitnessLinks 1) 1 ⟨5, 5⟩)
            (mkNode 1 10 0 .considering) ⟨10, 10⟩).y⟩) ∧
    (∀ j, j ∉ collectDescendants dragWitnessLinks 1 →
      nodesByIdGet (dragScenario dragWitnessLinks dragWitnessNodes
          (fun _ => none) false 1 ⟨5, 5⟩ ⟨10, 10⟩).nodes j =
        nodesByIdGet dragWitnessNodes j ∧
      (dragScenario dragWitnessLinks dragWitnessNodes (fun _ => none) false 1
          ⟨5, 5⟩ ⟨10, 10⟩).cache j = none) :=
  rigid_subtree_drag dragWitnessLinks dragWitnessNodes (fun _ => none) false 1
    ⟨5, 5⟩ ⟨10, 10⟩ (mkNode 1 10 0 .considering) (by decide) rfl

def thNodes : List Node := [⟨1, 0, 0, .considering, false, some ⟨0, 0⟩⟩]

def thStarts : Nat → Option Pos :=
  fun j => if j = 1 then some ⟨0, 0⟩ else none

/-- Counterexample to claim C9: with the pointer displaced by (1,0) — at
most 2 pixels in both axes — `didDragNode` stays `false`, so the
interaction will be treated as a selection click, yet the node is still
moved from (0,0) to (1,0) and becomes `positionLocked`: sub-threshold
moves do relocate and lock nodes. -/
theorem drag_threshold_counterexample :
    (dragMove thNodes (fun _ => none) false 1 [1] thStarts
      ⟨1, 0⟩).didDragNode = false ∧
    nodesByIdGet (dragMove thNodes (fun _ => none) false 1 [1] thStarts
      ⟨1, 0⟩).nodes 1 =
      some ⟨1, 0, 0, .considering, true, some ⟨1, 0⟩⟩ ∧
    nodesByIdGet thNodes 1 =
      some ⟨1, 0, 0, .considering, false, some ⟨0, 0⟩⟩ := by
  refine ⟨?_, ?_, ?_⟩ <;>
    norm_num [dragMove, dragDelta, dragStep, mutateNode, nodesByIdGet,
      posSet, thNodes, thStarts, Option.or, abs]

/-- Claim C9 (amended): the 2-pixel threshold gates only the
click-vs-drag classification flag `didDragNode` — the flag becomes true
exactly when the drag vector exceeds 2 in some axis — while the dragged
node is moved to its start plus the drag vector and `positionLocked`
regardless of whether the threshold is exceeded. -/
theorem drag_threshold_amended :
    ∀ (nodes : List Node) (cache : PosMap) (dd : Bool) (P : Nat)
      (subtree : List Nat) (starts : Nat → Option Pos) (next : Pos)
      (node : Node) (st : Pos) (nd : Node),
      (nodes.map (·.id)).Nodup → subtree.Nodup →
      nodes.find? (fun x => x.id == P) = some node →
      P ∈ subtree → starts P = some st → nodesByIdGet nodes P = some nd →
      (dragMove nodes cache dd P subtree starts next).didDragNode =
        (dd || (decide (2 < |(dragDelta starts node next).x|) ||
          decide (2 < |(dragDelta starts node next).y|))) ∧
      nodesByIdGet (dragMove nodes cache dd P subtree starts next).nodes P =
        some { nd with
          position := some ⟨st.x + (dragDelta starts node next).x,
            st.y + (dragDelta starts node next).y⟩,
          positionLocked := true } := by
  intro nodes cache dd P subtree starts next node st nd hnd hsub hfind hP hst
    hndP
  have hempty : subtree.isEmpty = false := by
    cases h : subtree.isEmpty
    · rfl
    · exact absurd (List.isEmpty_iff.mp h ▸ hP) (List.not_mem_nil P)
  constructor
  · rw [dragMove, hfind]
  · rw [dragMove, hfind]
    dsimp only
    rw [if_neg (fun hc => Bool.false_ne_true (hempty ▸ hc))]
    exact (dragFold_moved starts (dragDelta starts node next) subtree
      (nodes, cache) P st nd hnd hsub hP hst hndP).1

def thNodesB : List Node :=
  [⟨1, 0, 0, .considering, false, some ⟨0, 0⟩⟩,
   ⟨2, 0, 0, .considering, false, some ⟨4, 4⟩⟩]

def thStartsB : Nat → Option Pos :=
  fun j => if j = 1 then some ⟨0, 0⟩ else if j = 2 then some ⟨4, 4⟩ else none

/-- Witness for `drag_threshold_amended`: two nodes, subtree `[1, 2]`,
pointer target (2,0), i.e. a drag vector of (2,0) that does not exceed the
threshold. -/
theorem drag_threshold_amended_witness :
    (dragMove thNodesB (fun _ => none) false 1 [1, 2] thStartsB
        ⟨2, 0⟩).didDragNode =
      (false || (decide (2 < |(dragDelta thStartsB
          (⟨1, 0, 0, .considering, false, some ⟨0, 0⟩⟩ : Node) ⟨2, 0⟩).x|) ||
        decide (2 < |(dragDelta thStartsB
          (⟨1, 0, 0, .considering, false, some ⟨0, 0⟩⟩ : Node) ⟨2, 0⟩).y|))) ∧
    nodesByIdGet (dragMove thNodesB (fun _ => none) false 1 [1, 2] thStartsB
        ⟨2, 0⟩).nodes 1 =
      some { (⟨1, 0, 0, .considering, false, some ⟨0, 0⟩⟩ : Node) with
        position := some
          ⟨(⟨(0 : ℚ), 0⟩ : Pos).x + (dragDelta thStartsB
            (⟨1, 0, 0, .considering, false, some ⟨0, 0⟩⟩ : Node) ⟨2, 0⟩).x,
           (⟨(0 : ℚ), 0⟩ : Pos).y + (dragDelta thStartsB
            (⟨1, 0, 0, .considering, false, some ⟨0, 0⟩⟩ : Node) ⟨2, 0⟩).y⟩,
        positionLocked := true } :=
  drag_threshold_amended thNodesB (fun _ => none) false 1 [1, 2] thStartsB
    ⟨2, 0⟩ ⟨1, 0, 0, .considering, false, some ⟨0, 0⟩⟩ ⟨0, 0⟩
    ⟨1, 0, 0, .considering, false, some ⟨0, 0⟩⟩
    (by decide) (by decide) rfl (by decide) rfl rfl

end PlannerMap
